import Mathlib

/-
  Verification development for the voice-session orchestrator
  (Node.js backend `server/index.js` and the browser call-session hook).

  The JavaScript string pipeline is embedded over `List Char`; machine
  integers do not occur (all counters are unbounded in JS as used here).
  The asynchronous server is embedded as an explicit event machine: each
  WebSocket handler invocation, each transcription-job continuation and
  each `Promise.allSettled` barrier callback is one atomic step (JS is
  single threaded, so handler bodies are atomic).
-/

namespace VoiceAgent

/-! ## Character classes

`isWsJS` is the character set of the JS regex class `\s` (also the set
used by `String.prototype.trim`). `isAlnum` is `/[a-z0-9]/i`,
`isLowerAlnum` is the class kept by `replace(/[^a-z0-9]+/g, "")`, and
`lowerChar` is the ASCII fragment of `toLowerCase`. -/

def isWsJS (c : Char) : Bool :=
  c.toNat = 32 || c.toNat = 9 || c.toNat = 10 || c.toNat = 13 ||
  c.toNat = 11 || c.toNat = 12 ||
  c.toNat = 0xa0 || c.toNat = 0x1680 ||
  (0x2000 ≤ c.toNat && c.toNat ≤ 0x200a) ||
  c.toNat = 0x2028 || c.toNat = 0x2029 || c.toNat = 0x202f ||
  c.toNat = 0x205f || c.toNat = 0x3000 || c.toNat = 0xfeff

def isAlnum (c : Char) : Bool :=
  (97 ≤ c.toNat && c.toNat ≤ 122) || (65 ≤ c.toNat && c.toNat ≤ 90) ||
  (48 ≤ c.toNat && c.toNat ≤ 57)

def isLowerAlnum (c : Char) : Bool :=
  (97 ≤ c.toNat && c.toNat ≤ 122) || (48 ≤ c.toNat && c.toNat ≤ 57)

def lowerChar (c : Char) : Char :=
  if 65 ≤ c.toNat && c.toNat ≤ 90 then Char.ofNat (c.toNat + 32) else c

/-! ## JS regex replace of delimited spans

`replace(/\[[^\]]*\]/g, " ")` (and the paren / brace versions): scanning
left to right, each opening delimiter that is followed by a closing one
is replaced, together with everything up to and including the first such
closing delimiter, by a single space.  `breakClose cl l` splits `l` at
the first occurrence of `cl`. -/

def breakClose (cl : Char) : List Char → Option (List Char × List Char)
  | [] => none
  | c :: t =>
    if c = cl then some ([], t)
    else
      match breakClose cl t with
      | some (m, a) => some (c :: m, a)
      | none => none

/-- One left-to-right scan.  While no opening delimiter is pending,
characters pass through; an opening delimiter starts buffering; the
first closing delimiter discharges the whole buffered span as one
space; a buffer never discharged (no closing delimiter follows) is
emitted verbatim at the end, exactly as the regex leaves an unmatched
opening delimiter in place. -/
def stripAux (op cl : Char) : Option (List Char) → List Char → List Char
  | none, [] => []
  | some buf, [] => buf.reverse
  | none, c :: rest =>
    if c = op then stripAux op cl (some [c]) rest
    else c :: stripAux op cl none rest
  | some buf, c :: rest =>
    if c = cl then ' ' :: stripAux op cl none rest
    else stripAux op cl (some (c :: buf)) rest

def stripPair (op cl : Char) (l : List Char) : List Char :=
  stripAux op cl none l

/-! ## Whitespace collapsing and trimming

`replace(/\s+/g, " ")`: each maximal run of `\s` characters becomes a
single space.  `trimJS` is `String.prototype.trim`. -/

def collapseAux (prevWs : Bool) : List Char → List Char
  | [] => []
  | c :: rest =>
    if isWsJS c then
      if prevWs then collapseAux true rest
      else ' ' :: collapseAux true rest
    else c :: collapseAux false rest

def collapseWs (l : List Char) : List Char := collapseAux false l

def trimJS (l : List Char) : List Char :=
  ((l.dropWhile isWsJS).reverse.dropWhile isWsJS).reverse

/-- The `NON_SPEECH_NORMALIZED` set of `server/index.js`. -/
def NON_SPEECH_NORMALIZED : List String :=
  ["noise", "backgroundnoise", "backgroundsound", "background",
   "silence", "music", "inaudible", "unintelligible", "applause",
   "laughter", "laughing", "cough", "coughing", "breath", "breathing",
   "click", "clicking", "clicks", "sigh", "sighing", "ambient",
   "ambientnoise", "ambientmusic", "sound", "sounds", "...", "…"]

/-- `lower.replace(/[^a-z0-9]+/g, "")` applied to a character list. -/
def tokenOf (l : List Char) : List Char :=
  (l.map lowerChar).filter isLowerAlnum

/-- `normalizeWhisperText` of `server/index.js`, embedded verbatim:
falsy / whitespace-only input is empty; bracket, paren and brace
delimited spans are replaced by spaces (in that order); whitespace is
collapsed and trimmed; a remainder without any letter or digit is
dropped; a remainder that is a bracketed annotation whose inner
alphanumeric content is a non-speech token is dropped; a remainder
whose lowercased alphanumeric content is a non-speech token is dropped;
anything else is returned as cleaned text. -/
def normalizeWhisperText (raw : String) : String :=
  let t0 := trimJS raw.data
  if t0 = [] then ""
  else
    let t := trimJS (collapseWs
      (stripPair '{' '}' (stripPair '(' ')' (stripPair '[' ']' t0))))
    if t = [] then ""
    else if ¬ t.any isAlnum then ""
    else
      let lower := t.map lowerChar
      if lower.head? = some '[' ∧ lower.getLast? = some ']' then
        let inner := (lower.drop 1).dropLast.filter isLowerAlnum
        if inner = [] then ""
        else if NON_SPEECH_NORMALIZED.contains (String.mk inner) then ""
        else if NON_SPEECH_NORMALIZED.contains (String.mk (tokenOf t)) then ""
        else String.mk t
      else if NON_SPEECH_NORMALIZED.contains (String.mk (tokenOf t)) then ""
      else String.mk t

/-- `countWords` of `server/index.js`: the number of maximal runs of
non-whitespace characters (`trim().split(/\s+/).filter(Boolean).length`). -/
def countWordsAux (inWord : Bool) : List Char → Nat
  | [] => 0
  | c :: rest =>
    if isWsJS c then countWordsAux false rest
    else if inWord then countWordsAux true rest
    else 1 + countWordsAux true rest

def countWordsL (l : List Char) : Nat := countWordsAux false l

def countWords (s : String) : Nat := countWordsL s.data

/-! ## Span-free strings

`hasPair op cl l` holds when some occurrence of `op` in `l` is followed,
anywhere later, by an occurrence of `cl`: exactly the condition for the
corresponding delimiter regex to match somewhere in `l`. -/

def hasPair (op cl : Char) : List Char → Bool
  | [] => false
  | c :: rest => (c = op && rest.any (fun d => d = cl)) || hasPair op cl rest

/-! ## Whitespace-normal form

Output characters of `collapseWs` satisfy: every whitespace character is
a plain space, and no two adjacent characters are both whitespace; after
`trimJS` the ends are non-whitespace as well.  Conversely a list in this
normal form is fixed by both functions. -/

def SpacedWs (l : List Char) : Prop := ∀ c ∈ l, isWsJS c = true → c = ' '

def NoWsRun (l : List Char) : Prop :=
  List.Chain' (fun a b => ¬(isWsJS a = true ∧ isWsJS b = true)) l

def HeadNotWs (l : List Char) : Prop := ∀ c ∈ l.head?, isWsJS c = false

def LastNotWs (l : List Char) : Prop := ∀ c ∈ l.getLast?, isWsJS c = false

def WsClean (l : List Char) : Prop :=
  SpacedWs l ∧ NoWsRun l ∧ HeadNotWs l ∧ LastNotWs l

/-! ## Joining with single spaces

`joinSp` is `Array.prototype.join(" ")` on the character level. -/

def joinSp : List (List Char) → List Char
  | [] => []
  | [x] => x
  | x :: y :: t => x ++ ' ' :: joinSp (y :: t)

/-- The cleaning pipeline of `normalizeWhisperText` applied after the
initial trim. -/
def cleanPipeline (t0 : List Char) : List Char :=
  trimJS (collapseWs
    (stripPair '{' '}' (stripPair '(' ')' (stripPair '[' ']' t0))))

/-- The normalization contract as the specification words it: annotations
in bracket, paren and brace delimiters are stripped, whitespace is
collapsed and trimmed, an empty or letterless/digitless remainder maps to
the empty string, a remainder whose lowercased alphanumeric content is a
non-speech token maps to the empty string, anything else is returned as
the cleaned text. -/
def specNormalizeWhisperText (raw : String) : String :=
  let t := trimJS (collapseWs (stripPair '{' '}' (stripPair '(' ')'
    (stripPair '[' ']' (trimJS raw.data)))))
  if t = [] then ""
  else if ¬ t.any isAlnum then ""
  else if NON_SPEECH_NORMALIZED.contains (String.mk (tokenOf t)) then ""
  else String.mk t

/-! ## Server session machine

`server/index.js` embedded as an event machine.  JavaScript runs the
handlers atomically, so one step is one control-message handler body,
one audio-message handler body, one transcription-job continuation
(`.then`/`.catch` of `spawnWhisperOnce`), one `Promise.allSettled`
barrier callback, or one upstream SSE terminal event.  `spawned`,
`settled`, `barriers`, `openStreams` and `nextStream` are runtime
bookkeeping (promises and `EventSource` objects); `sess` is the mutable
per-correlation-id state object of `newSessionState`. -/

inductive JobKind
  | audioSeg
  | trailing
deriving DecidableEq, Repr

structure Job where
  gen : Nat
  idx : Nat
  kind : JobKind
deriving DecidableEq, Repr

/-- Transcription Engine oracle: the outcome of the whisper invocation
for segment `idx` of generation `gen`: `some text` when the process
resolves with output `text`, `none` when it rejects. -/
def Oracle : Type := Nat → Nat → Option String

structure Sess where
  cur : Nat
  results : List (Nat × String)
  jobs : List Job
  segIdx : Nat
  totalBytes : Nat
  ended : Bool
  sessionId : Option String
  transcriptionGen : Nat
deriving DecidableEq, Repr

def newSessionState : Sess :=
  { cur := 0, results := [], jobs := [], segIdx := 0, totalBytes := 0,
    ended := false, sessionId := none, transcriptionGen := 0 }

def resetTranscriptionBuffers (s : Sess) (resetSessionId : Bool) : Sess :=
  { cur := 0, results := [], jobs := [], segIdx := 0, totalBytes := 0,
    ended := false,
    sessionId := if resetSessionId then none else s.sessionId,
    transcriptionGen := s.transcriptionGen + 1 }

inductive Msg
  | ack (sessionId : String)
  | errorMsg (code : String)
  | partialAsr (idx : Nat) (text : String)
  | finalAsr (text : String)
  | llmQuery (sessionId : String) (question : String)
  | llmDoneInsufficient (wordTotal : Nat)
  | llmForward (event : String)
deriving DecidableEq, Repr

structure Machine where
  sess : Sess
  spawned : List Job
  settled : List Job
  barriers : List (List Job)
  openStreams : List Nat
  nextStream : Nat
deriving DecidableEq, Repr

def SEG_BYTES : Nat := 256000

def MIN_TRANSCRIPT_WORDS : Nat := 5

def initMachine : Machine :=
  { sess := newSessionState, spawned := [], settled := [], barriers := [],
    openStreams := [], nextStream := 0 }

/-- `results.slice().sort((a, b) => a.idx - b.idx)`. -/
def sortByIdx (l : List (Nat × String)) : List (Nat × String) :=
  List.insertionSort (fun a b => a.1 ≤ b.1) l

/-- Transcript assembly in the end-barrier callback: sort by index, keep
entries with non-empty (truthy) text, join with single spaces, collapse
whitespace, trim. -/
def assembleTranscript (results : List (Nat × String)) : String :=
  String.mk (trimJS (collapseWs (joinSp
    (((sortByIdx results).filter (fun p => p.2 ≠ "")).map
      (fun p => p.2.data)))))

/-- Partial-transcript aggregate in the audio-job continuation (the code
has no emptiness filter there: only non-empty texts are ever stored). -/
def aggregateTranscript (results : List (Nat × String)) : String :=
  String.mk (trimJS (collapseWs (joinSp
    ((sortByIdx results).map (fun p => p.2.data)))))

/-- The `start` control-message handler, with the
`createFastapiSession()` outcome supplied as `outcome`. -/
def stepStart (m : Machine) (outcome : Option String) : Machine × List Msg :=
  let s := resetTranscriptionBuffers m.sess true
  match outcome with
  | some sid =>
    ({ m with sess := { s with sessionId := some sid } }, [Msg.ack sid])
  | none => ({ m with sess := s }, [Msg.errorMsg "session_create_failed"])

/-- The `while (st.cur.length >= SEG_BYTES)` slicing loop of the audio
handler, with an explicit fuel (the loop removes at least one byte per
iteration, so `s.cur` rounds of fuel always suffice): each iteration
spawns one fixed-size audio-segment job. -/
def drainFuel : Nat → Sess → Sess × List Job
  | 0, s => (s, [])
  | fuel + 1, s =>
    if SEG_BYTES ≤ s.cur then
      let j : Job :=
        { gen := s.transcriptionGen, idx := s.segIdx, kind := JobKind.audioSeg }
      let s2 := { s with
        cur := s.cur - SEG_BYTES
        segIdx := s.segIdx + 1
        jobs := s.jobs ++ [j] }
      let r := drainFuel fuel s2
      (r.1, j :: r.2)
    else (s, [])

def drainSegments (s : Sess) : Sess × List Job := drainFuel s.cur s

/-- The audio-channel message handler: append bytes, slice segments. -/
def stepAudio (m : Machine) (n : Nat) : Machine × List Msg :=
  let s0 := { m.sess with
    cur := m.sess.cur + n
    totalBytes := m.sess.totalBytes + n }
  let r := drainSegments s0
  ({ m with sess := r.1, spawned := m.spawned ++ r.2 }, [])

/-- The `end` control-message handler: set `ended`, flush any non-empty
rolling buffer as one trailing segment tagged with the current
generation, and register the `Promise.allSettled(st.jobs)` barrier over
the jobs list as it stands now. -/
def stepEnd (m : Machine) : Machine × List Msg :=
  let s0 := { m.sess with ended := true }
  if 0 < s0.cur then
    let j : Job :=
      { gen := s0.transcriptionGen, idx := s0.segIdx, kind := JobKind.trailing }
    let s1 := { s0 with
      segIdx := s0.segIdx + 1
      jobs := s0.jobs ++ [j]
      cur := 0 }
    ({ m with
      sess := s1
      spawned := m.spawned ++ [j]
      barriers := m.barriers ++ [s1.jobs] }, [])
  else
    ({ m with sess := s0, barriers := m.barriers ++ [s0.jobs] }, [])

/-- A transcription job settles and its continuation runs: a rejected
job only logs; a stale generation returns without touching state; an
empty normalization is skipped; otherwise the cleaned text is pushed
keyed by the sequence index, and an audio-segment job additionally
offers the running aggregate as `partial_asr` when it reaches the
minimum word count. -/
def stepJobDone (ora : Oracle) (m : Machine) (j : Job) : Machine × List Msg :=
  let m1 := { m with settled := m.settled ++ [j] }
  match ora j.gen j.idx with
  | none => (m1, [])
  | some raw =>
    if j.gen ≠ m.sess.transcriptionGen then (m1, [])
    else
      let cleaned := normalizeWhisperText raw
      if cleaned = "" then (m1, [])
      else
        let results2 := m.sess.results ++ [(j.idx, cleaned)]
        let m2 := { m1 with sess := { m.sess with results := results2 } }
        match j.kind with
        | JobKind.trailing => (m2, [])
        | JobKind.audioSeg =>
          let aggregate := aggregateTranscript results2
          if countWords aggregate < MIN_TRANSCRIPT_WORDS then (m2, [])
          else (m2, [Msg.partialAsr j.idx aggregate])

/-- The `Promise.allSettled(st.jobs).then(...)` callback: assemble the
final transcript, send `final_asr`, either emit the synthetic
insufficient-words `done` or (when a FastAPI session id is present) open
one `pipeLLM` relay, then reset the buffers. -/
def stepBarrier (m : Machine) (i : Nat) : Machine × List Msg :=
  let transcript := assembleTranscript m.sess.results
  let wordTotal := countWords transcript
  let sessAfter := resetTranscriptionBuffers m.sess false
  let base := { m with sess := sessAfter, barriers := m.barriers.eraseIdx i }
  if wordTotal < MIN_TRANSCRIPT_WORDS then
    (base, [Msg.finalAsr "", Msg.llmDoneInsufficient wordTotal])
  else
    match m.sess.sessionId with
    | some sid =>
      ({ base with
        openStreams := m.nextStream :: m.openStreams
        nextStream := m.nextStream + 1 },
       [Msg.finalAsr transcript, Msg.llmQuery sid transcript])
    | none => (base, [Msg.finalAsr transcript])

/-- A terminal upstream SSE event (`done` or `error`): `pipeLLM`
forwards it and calls `es.close()` on that stream. -/
def stepStreamClose (m : Machine) (sd : Nat) (evt : String) :
    Machine × List Msg :=
  ({ m with openStreams := m.openStreams.filter (fun x => x ≠ sd) },
   [Msg.llmForward evt])

inductive Event
  | start (outcome : Option String)
  | endCmd
  | audioChunk (n : Nat)
  | jobDone (j : Job)
  | fireBarrier (i : Nat)
  | streamDone (sd : Nat)
  | streamError (sd : Nat)
deriving DecidableEq, Repr

def step (ora : Oracle) (m : Machine) (e : Event) : Machine × List Msg :=
  match e with
  | Event.start outcome => stepStart m outcome
  | Event.endCmd => stepEnd m
  | Event.audioChunk n => stepAudio m n
  | Event.jobDone j => stepJobDone ora m j
  | Event.fireBarrier i => stepBarrier m i
  | Event.streamDone sd => stepStreamClose m sd "done"
  | Event.streamError sd => stepStreamClose m sd "error"

def run (ora : Oracle) (m : Machine) : List Event → Machine × List Msg
  | [] => (m, [])
  | e :: es =>
    let r1 := step ora m e
    let r2 := run ora r1.1 es
    (r2.1, r1.2 ++ r2.2)

/-- A pending `allSettled` barrier may fire once every job it awaits has
settled; among fireable pending barriers the earliest-registered runs
first (promise callbacks run in registration order). -/
def barrierReady (m : Machine) (i : Nat) : Bool :=
  match m.barriers.get? i with
  | some B => B.all (fun j => m.settled.contains j)
  | none => false

def validEvent (m : Machine) (e : Event) : Bool :=
  match e with
  | Event.start _ => true
  | Event.endCmd => true
  | Event.audioChunk _ => true
  | Event.jobDone j => m.spawned.contains j && !(m.settled.contains j)
  | Event.fireBarrier i =>
    barrierReady m i && (List.range i).all (fun k => !(barrierReady m k))
  | Event.streamDone sd => m.openStreams.contains sd
  | Event.streamError sd => m.openStreams.contains sd

def validRun (ora : Oracle) (m : Machine) : List Event → Bool
  | [] => true
  | e :: es => validEvent m e && validRun ora (step ora m e).1 es

/-! ## Canonical transcripts -/

/-- What one segment contributes: the normalized engine text on
success, nothing on failure. -/
def cleanedOf (ora : Oracle) (g i : Nat) : String :=
  match ora g i with
  | some raw => normalizeWhisperText raw
  | none => ""

def canonicalPairs (ora : Oracle) (g : Nat) (idxs : List Nat) :
    List (Nat × String) :=
  (List.insertionSort (fun a b => a ≤ b) idxs).filterMap
    (fun i => if cleanedOf ora g i = "" then none
      else some (i, cleanedOf ora g i))

/-- The normalized non-empty segment texts joined by single spaces in
ascending sequence-index order. -/
def canonicalTranscript (ora : Oracle) (g : Nat) (idxs : List Nat) : String :=
  String.mk (joinSp ((canonicalPairs ora g idxs).map (fun p => p.2.data)))

def finalAsrTexts (msgs : List Msg) : List String :=
  msgs.filterMap (fun msg => match msg with
    | Msg.finalAsr t => some t
    | _ => none)

def llmQueryCount (msgs : List Msg) : Nat :=
  (msgs.filter (fun msg => match msg with
    | Msg.llmQuery _ _ => true
    | _ => false)).length

/-! ## Sorting facts -/

instance : IsTotal (Nat × String) (fun a b => a.1 ≤ b.1) :=
  ⟨fun a b => Nat.le_total a.1 b.1⟩

instance : IsTrans (Nat × String) (fun a b => a.1 ≤ b.1) :=
  ⟨fun a b c hab hbc => Nat.le_trans hab hbc⟩

instance : IsAntisymm (Nat × String) (fun a b => a.1 < b.1) :=
  ⟨fun a b h1 h2 => absurd (Nat.lt_trans h1 h2) (Nat.lt_irrefl _)⟩

instance : IsTotal Nat (fun a b => a ≤ b) := ⟨Nat.le_total⟩

instance : IsTrans Nat (fun a b => a ≤ b) := ⟨fun a b c => Nat.le_trans⟩

/-! ## Effect of job completions, in any arrival order -/

/-- What one job contributes to `results` when its continuation runs in
the generation it was tagged with. -/
def contribOf (ora : Oracle) (j : Job) : Option (Nat × String) :=
  if cleanedOf ora j.gen j.idx = "" then none
  else some (j.idx, cleanedOf ora j.gen j.idx)

/-! ## The assembled transcript is the canonical one -/

/-- `contribOf` as a function of the sequence index, for a fixed
generation. -/
def contribNat (ora : Oracle) (g : Nat) (i : Nat) : Option (Nat × String) :=
  if cleanedOf ora g i = "" then none else some (i, cleanedOf ora g i)

/-! ## Client call-session hook

The endpointing logic of the browser hook (`finalizeTurn` and the
`proc.onaudioprocess` handler): local state is the four refs the
handler reads and writes plus the status string; one `Tick` is one
`onaudioprocess` invocation, carrying the clock value, the silence
verdict of `isSilent`, and whether the control/audio sockets are open.
The successful-send path of `finalizeTurn` is modelled (its catch
branch only reverts the flag when the send itself throws). -/

structure CState where
  awaitingResponse : Bool
  isEnding : Bool
  hasAudioForTurn : Bool
  lastVoiceTs : Nat
  status : String
deriving DecidableEq, Repr

def SIL_MS : Nat := 1200

inductive CMsg
  | sendEnd
  | sendAudio
deriving DecidableEq, Repr

structure Tick where
  now : Nat
  silent : Bool
  ctrlOpen : Bool
  audioOpen : Bool
deriving DecidableEq, Repr

/-- `finalizeTurn`: no-op while awaiting or ending, no-op without voiced
audio this turn, skipped (state untouched) when the control socket is
not open, otherwise marks the turn awaiting and sends `end`. -/
def finalizeTurn (s : CState) (now : Nat) (ctrlOpen : Bool) :
    CState × List CMsg :=
  if s.awaitingResponse || s.isEnding then (s, [])
  else if ¬ s.hasAudioForTurn then (s, [])
  else if ¬ ctrlOpen = true then (s, [])
  else
    ({ s with
      awaitingResponse := true
      hasAudioForTurn := false
      lastVoiceTs := now
      status := "processing" }, [CMsg.sendEnd])

/-- `proc.onaudioprocess`: early return while awaiting or ending; a
voiced frame refreshes `lastVoiceTs` and marks the turn voiced; a frame
is forwarded when the audio socket is open and it is voiced or the turn
already has voice; finalize fires when voice was observed and the
silence run measured at this tick strictly exceeds `SIL_MS`. -/
def tickStep (s : CState) (t : Tick) : CState × List CMsg :=
  if s.awaitingResponse || s.isEnding then (s, [])
  else
    let s1 := if ¬ t.silent then
        { s with lastVoiceTs := t.now, hasAudioForTurn := true }
      else s
    let audioMsgs := if t.audioOpen && (!t.silent || s1.hasAudioForTurn) then
        [CMsg.sendAudio]
      else ([] : List CMsg)
    if s1.hasAudioForTurn && decide (SIL_MS < t.now - s1.lastVoiceTs) then
      let r := finalizeTurn s1 t.now t.ctrlOpen
      (r.1, audioMsgs ++ r.2)
    else (s1, audioMsgs)

def runTicks (s : CState) : List Tick → CState × List CMsg
  | [] => (s, [])
  | t :: ts =>
    let r := tickStep s t
    let r2 := runTicks r.1 ts
    (r2.1, r.2 ++ r2.2)

def endCount (msgs : List CMsg) : Nat :=
  (msgs.filter (fun x => x = CMsg.sendEnd)).length

/-! ## Concrete sessions, oracles and traces for the claim records -/

def jA : Job := { gen := 2, idx := 0, kind := JobKind.audioSeg }

def jB : Job := { gen := 2, idx := 1, kind := JobKind.audioSeg }

def oraTwo : Oracle := fun g i =>
  if g = 2 ∧ i = 0 then some "one two three"
  else if g = 2 ∧ i = 1 then some "four five six"
  else none

def sessTwo : Sess :=
  { cur := 0, results := [], jobs := [jA, jB], segIdx := 2,
    totalBytes := 512000, ended := true, sessionId := some "S",
    transcriptionGen := 2 }

def mTwo : Machine :=
  { sess := sessTwo, spawned := [jA, jB], settled := [],
    barriers := [[jA, jB]], openStreams := [], nextStream := 0 }

def jShort : Job := { gen := 1, idx := 0, kind := JobKind.audioSeg }

def oraShort : Oracle := fun g i =>
  if g = 1 ∧ i = 0 then some "hello there" else none

def sessShort : Sess :=
  { cur := 0, results := [], jobs := [jShort], segIdx := 1,
    totalBytes := 256000, ended := true, sessionId := some "S",
    transcriptionGen := 1 }

def mShort : Machine :=
  { sess := sessShort, spawned := [jShort], settled := [],
    barriers := [[jShort]], openStreams := [], nextStream := 0 }

def jStale : Job := { gen := 0, idx := 5, kind := JobKind.audioSeg }

def oraFive : Oracle := fun g i =>
  if g = 1 ∧ i = 0 then some "one two three four five" else none

def esDouble : List Event :=
  [Event.start (some "S"), Event.audioChunk 256000,
   Event.jobDone ⟨1, 0, JobKind.audioSeg⟩,
   Event.endCmd, Event.endCmd, Event.fireBarrier 0, Event.fireBarrier 0]

def sessC3w : Sess :=
  { cur := 0, results := [(0, "one two three four five")], jobs := [jShort],
    segIdx := 1, totalBytes := 256000, ended := false,
    sessionId := some "S", transcriptionGen := 1 }

def mC3w : Machine :=
  { sess := sessC3w, spawned := [jShort], settled := [jShort],
    barriers := [], openStreams := [], nextStream := 0 }

def oraAll : Oracle := fun _ _ => some "one two three four five"

def esTwoTurns : List Event :=
  [Event.start (some "S"), Event.audioChunk 256000,
   Event.jobDone ⟨1, 0, JobKind.audioSeg⟩,
   Event.endCmd, Event.fireBarrier 0, Event.audioChunk 256000,
   Event.jobDone ⟨2, 0, JobKind.audioSeg⟩,
   Event.endCmd, Event.fireBarrier 0]

def sessNoSid : Sess :=
  { cur := 0, results := [(0, "alpha beta gamma delta epsilon")],
    jobs := [], segIdx := 1, totalBytes := 0, ended := true,
    sessionId := none, transcriptionGen := 1 }

def mNoSid : Machine :=
  { sess := sessNoSid, spawned := [], settled := [], barriers := [[]],
    openStreams := [], nextStream := 0 }

def oraNoise : Oracle := fun g i =>
  if g = 1 ∧ i = 0 then some "[noise]" else none

def sessC7 : Sess :=
  { cur := 500, results := [], jobs := [], segIdx := 0, totalBytes := 500,
    ended := false, sessionId := some "S", transcriptionGen := 1 }

def mC7 : Machine :=
  { sess := sessC7, spawned := [], settled := [], barriers := [],
    openStreams := [], nextStream := 0 }

def oraFail : Oracle := fun _ _ => none

def mFail : Machine :=
  { sess := sessShort, spawned := [jShort], settled := [],
    barriers := [[jShort]], openStreams := [], nextStream := 0 }

def jF : Job := { gen := 3, idx := 0, kind := JobKind.audioSeg }

def jG : Job := { gen := 3, idx := 1, kind := JobKind.audioSeg }

def oraOneFails : Oracle := fun g i =>
  if g = 3 ∧ i = 1 then some "alpha beta gamma delta epsilon" else none

def sessC8w : Sess :=
  { cur := 0, results := [], jobs := [jF, jG], segIdx := 2,
    totalBytes := 512000, ended := true, sessionId := some "S",
    transcriptionGen := 3 }

def mC8w : Machine :=
  { sess := sessC8w, spawned := [jF, jG], settled := [],
    barriers := [[jF, jG]], openStreams := [], nextStream := 0 }

def s0C : CState :=
  { awaitingResponse := false, isEnding := false, hasAudioForTurn := false,
    lastVoiceTs := 0, status := "in-call" }

def sVoiced : CState :=
  { awaitingResponse := false, isEnding := false, hasAudioForTurn := true,
    lastVoiceTs := 0, status := "in-call" }

def tVoice : Tick :=
  { now := 0, silent := false, ctrlOpen := true, audioOpen := true }

def tEdge : Tick :=
  { now := 1200, silent := true, ctrlOpen := true, audioOpen := true }

def tLate : Tick :=
  { now := 1201, silent := true, ctrlOpen := true, audioOpen := true }

/-! ## Theorems -/

theorem breakClose_spec (cl : Char) :
    ∀ (l m a : List Char), breakClose cl l = some (m, a) →
      l = m ++ cl :: a ∧ cl ∉ m := by
  intro l
  induction l with
  | nil => intro m a h; simp [breakClose] at h
  | cons c t ih =>
    intro m a h
    by_cases hc : c = cl
    · simp [breakClose, hc] at h
      obtain ⟨hm, ha⟩ := h
      subst hm; subst ha; subst hc
      simp
    · simp [breakClose, hc] at h
      cases hbt : breakClose cl t with
      | none => rw [hbt] at h; simp at h
      | some p =>
        rw [hbt] at h
        simp at h
        obtain ⟨hm, ha⟩ := h
        obtain ⟨hl, hnm⟩ := ih p.1 p.2 (by rw [hbt])
        subst hm
        constructor
        · simp [hl, ha]
        · simp [hnm, Ne.symm hc]

theorem breakClose_none (cl : Char) :
    ∀ (l : List Char), breakClose cl l = none → cl ∉ l := by
  intro l
  induction l with
  | nil => intro _ h; simp at h
  | cons c t ih =>
    intro h
    by_cases hc : c = cl
    · simp [breakClose, hc] at h
    · simp [breakClose, hc] at h
      cases hbt : breakClose cl t with
      | none => simp [Ne.symm hc, ih hbt]
      | some p => rw [hbt] at h; simp at h

theorem breakClose_length (cl : Char) :
    ∀ (l m a : List Char), breakClose cl l = some (m, a) →
      a.length < l.length := by
  intro l m a h
  have := (breakClose_spec cl l m a h).1
  subst this
  simp
  omega

theorem length_dropWhile_le {α : Type} (p : α → Bool) (l : List α) :
    (l.dropWhile p).length ≤ l.length := by
  induction l with
  | nil => simp
  | cons c t ih =>
    by_cases h : p c
    · simp [List.dropWhile, h]; omega
    · simp [List.dropWhile, h]

theorem stripAux_no_close (op cl : Char) (rest : List Char)
    (h : cl ∉ rest) : ∀ (buf : List Char),
    stripAux op cl (some buf) rest = buf.reverse ++ rest := by
  induction rest with
  | nil => intro buf; simp [stripAux]
  | cons c t ih =>
    intro buf
    simp only [List.mem_cons, not_or] at h
    have hcc : ¬ c = cl := fun hcon => h.1 hcon.symm
    simp only [stripAux, if_neg hcc]
    rw [ih h.2]
    simp

theorem stripAux_until_close (op cl : Char) (m : List Char) :
    cl ∉ m → ∀ (a buf : List Char),
    stripAux op cl (some buf) (m ++ cl :: a) = ' ' :: stripAux op cl none a := by
  induction m with
  | nil =>
    intro _ a buf
    simp [stripAux]
  | cons c t ih =>
    intro h a buf
    simp only [List.mem_cons, not_or] at h
    have hcc : ¬ c = cl := fun hcon => h.1 hcon.symm
    simp only [List.cons_append, stripAux, if_neg hcc]
    exact ih h.2 a _

theorem stripPair_nil (op cl : Char) : stripPair op cl [] = [] := rfl

theorem stripPair_cons_op_some (op cl : Char) (t m a : List Char)
    (hb : breakClose cl t = some (m, a)) :
    stripPair op cl (op :: t) = ' ' :: stripPair op cl a := by
  obtain ⟨ht, hnm⟩ := breakClose_spec cl t m a hb
  rw [stripPair, stripPair, stripAux]
  rw [if_pos rfl, ht]
  exact stripAux_until_close op cl m hnm a [op]

theorem stripPair_cons_op_none (op cl : Char) (t : List Char)
    (hb : breakClose cl t = none) :
    stripPair op cl (op :: t) = op :: t := by
  have hnm := breakClose_none cl t hb
  rw [stripPair, stripAux]
  rw [if_pos rfl]
  rw [stripAux_no_close op cl t hnm [op]]
  rfl

theorem stripPair_cons_ne (op cl c : Char) (t : List Char) (hc : c ≠ op) :
    stripPair op cl (c :: t) = c :: stripPair op cl t := by
  rw [stripPair, stripAux, if_neg hc]
  rfl

/-- Induction along the matches of the delimiter regex. -/
theorem stripPair_rec (op cl : Char) (motive : List Char → Prop)
    (case1 : motive [])
    (case2 : ∀ (t m a : List Char), breakClose cl t = some (m, a) →
      motive a → motive (op :: t))
    (case3 : ∀ (t : List Char), breakClose cl t = none → motive (op :: t))
    (case4 : ∀ (c : Char) (t : List Char), ¬ c = op → motive t →
      motive (c :: t)) :
    ∀ (l : List Char), motive l := by
  have key : ∀ (n : Nat), ∀ (l : List Char), l.length ≤ n → motive l := by
    intro n
    induction n with
    | zero =>
      intro l hl
      have hz : l = [] := List.eq_nil_of_length_eq_zero (Nat.le_zero.mp hl)
      rw [hz]
      exact case1
    | succ n ih =>
      intro l hl
      cases l with
      | nil => exact case1
      | cons c t =>
        by_cases hc : c = op
        · subst hc
          cases hb : breakClose cl t with
          | some p =>
            have hlen := breakClose_length cl t p.1 p.2 (by rw [hb])
            refine case2 t p.1 p.2 (by rw [hb]) (ih p.2 ?_)
            simp only [List.length_cons] at hl
            omega
          | none => exact case3 t hb
        · refine case4 c t hc (ih t ?_)
          simp only [List.length_cons] at hl
          omega
  exact fun l => key l.length l (Nat.le_refl _)

theorem hasPair_of_not_mem (op cl : Char) (l : List Char)
    (h : cl ∉ l) : hasPair op cl l = false := by
  induction l with
  | nil => rfl
  | cons c t ih =>
    simp only [List.mem_cons, not_or] at h
    simp [hasPair, ih h.2]
    intro _ x hx
    exact fun hxc => absurd (hxc ▸ hx) h.2

theorem stripPair_eq_self (op cl : Char) (l : List Char)
    (h : hasPair op cl l = false) : stripPair op cl l = l := by
  induction l using stripPair_rec op cl with
  | case1 => exact stripPair_nil op cl
  | case2 t m a hb ih =>
    exfalso
    obtain ⟨hrest, -⟩ := breakClose_spec cl t m a hb
    have hcl : cl ∈ t := by simp [hrest]
    simp only [hasPair, Bool.or_eq_false_iff, Bool.and_eq_false_iff] at h
    rcases h.1 with h1 | h1
    · simp at h1
    · rw [List.any_eq_false] at h1
      have := h1 cl hcl
      simp at this
  | case3 t hb => exact stripPair_cons_op_none op cl t hb
  | case4 c t hc ih =>
    simp only [hasPair, Bool.or_eq_false_iff] at h
    rw [stripPair_cons_ne op cl c t hc, ih h.2]

theorem hasPair_stripPair (op cl : Char) (hop : op ≠ ' ') (l : List Char) :
    hasPair op cl (stripPair op cl l) = false := by
  induction l using stripPair_rec op cl with
  | case1 => simp [stripPair_nil, hasPair]
  | case2 t m a hb ih =>
    rw [stripPair_cons_op_some op cl t m a hb]
    simp [hasPair, ih]
    intro h
    exact absurd h.symm hop
  | case3 t hb =>
    have hnm := breakClose_none cl t hb
    rw [stripPair_cons_op_none op cl t hb]
    simp [hasPair, hasPair_of_not_mem op cl t hnm]
    intro x hx hxc
    exact absurd (hxc ▸ hx) hnm
  | case4 c t hc ih =>
    rw [stripPair_cons_ne op cl c t hc]
    simp [hasPair, ih, hc]

theorem hasPair_sublist (op cl : Char) (l₁ l₂ : List Char)
    (hs : List.Sublist l₁ l₂) (h : hasPair op cl l₁ = true) :
    hasPair op cl l₂ = true := by
  induction hs with
  | slnil => exact h
  | cons c _ ih => simp [hasPair, ih h]
  | cons₂ c hsub ih =>
    simp only [hasPair, Bool.or_eq_true] at h ⊢
    rcases h with h | h
    · left
      simp only [Bool.and_eq_true, List.any_eq_true] at h ⊢
      obtain ⟨hc, x, hx, hxc⟩ := h
      exact ⟨hc, x, hsub.mem hx, hxc⟩
    · right; exact ih h

theorem any_eq_filter (cl : Char) (pr : Char → Bool) (hcl : pr cl = true)
    (t : List Char) :
    (t.filter pr).any (fun d => d = cl) = t.any (fun d => d = cl) := by
  induction t with
  | nil => rfl
  | cons x xs ih =>
    simp only [List.filter_cons]
    by_cases hx : pr x = true
    · rw [if_pos hx]
      simp [List.any_cons, ih]
    · rw [if_neg hx]
      simp only [List.any_cons, ih]
      by_cases hxc : x = cl
      · subst hxc
        rw [hcl] at hx
        simp at hx
      · simp [hxc]

theorem hasPair_filter (op cl : Char) (l : List Char) :
    hasPair op cl (l.filter (fun c => c = op || c = cl)) = hasPair op cl l := by
  induction l with
  | nil => rfl
  | cons c t ih =>
    simp only [List.filter_cons]
    by_cases hco : c = op
    · rw [if_pos (by simp [hco])]
      simp only [hasPair]
      rw [ih, any_eq_filter cl _ (by simp) t]
    · by_cases hcc : c = cl
      · rw [if_pos (by simp [hcc])]
        simp only [hasPair]
        rw [ih]
        simp [hco]
      · rw [if_neg (by simp [hco, hcc])]
        rw [ih]
        simp [hasPair, hco]

theorem hasPair_false_of_filter_sublist (op cl : Char) (l₁ l₂ : List Char)
    (hsub : List.Sublist (l₁.filter (fun c => c = op || c = cl))
      (l₂.filter (fun c => c = op || c = cl)))
    (h₂ : hasPair op cl l₂ = false) : hasPair op cl l₁ = false := by
  by_contra hcon
  have h₁ : hasPair op cl l₁ = true := by
    cases hv : hasPair op cl l₁
    · exact absurd hv hcon
    · rfl
  have := hasPair_sublist op cl _ _ hsub (by rw [hasPair_filter]; exact h₁)
  rw [hasPair_filter] at this
  rw [this] at h₂
  exact absurd h₂ (by simp)

/-! ## Sublist facts

Each cleaning stage only deletes characters or replaces delimited spans
and whitespace runs with spaces, so filtering by any character class
excluding the space is monotone along the pipeline. -/

theorem filter_cons_sublist (pr : Char → Bool) (c : Char) (t : List Char) :
    List.Sublist (t.filter pr) ((c :: t).filter pr) := by
  simp only [List.filter_cons]
  by_cases h : pr c = true
  · rw [if_pos h]
    exact (List.Sublist.refl _).cons c
  · rw [if_neg h]

theorem filter_stripPair_sublist (pr : Char → Bool) (hpr : pr ' ' = false)
    (p q : Char) (l : List Char) :
    List.Sublist ((stripPair p q l).filter pr) (l.filter pr) := by
  induction l using stripPair_rec p q with
  | case1 =>
    rw [stripPair_nil]
  | case2 t m a hb ih =>
    rw [stripPair_cons_op_some p q t m a hb]
    obtain ⟨ht, -⟩ := breakClose_spec q t m a hb
    have hL : List.filter pr (' ' :: stripPair p q a) =
        List.filter pr (stripPair p q a) := by
      simp [List.filter_cons, hpr]
    rw [hL]
    have haq : List.Sublist a t := by
      rw [ht]
      exact ((List.sublist_cons_self q a).trans (List.sublist_append_right m _))
    exact ih.trans ((haq.filter pr).trans (filter_cons_sublist pr p t))
  | case3 t hb =>
    rw [stripPair_cons_op_none p q t hb]
  | case4 c t hc ih =>
    rw [stripPair_cons_ne p q c t hc]
    simp only [List.filter_cons]
    by_cases h : pr c = true
    · rw [if_pos h, if_pos h]
      exact ih.cons₂ c
    · rw [if_neg h, if_neg h]
      exact ih

theorem filter_collapseAux_sublist (pr : Char → Bool) (hpr : pr ' ' = false)
    (l : List Char) : ∀ (b : Bool),
    List.Sublist ((collapseAux b l).filter pr) (l.filter pr) := by
  induction l with
  | nil => intro b; simp [collapseAux]
  | cons c t ih =>
    intro b
    by_cases hw : isWsJS c = true
    · have htail : List.Sublist ((collapseAux true t).filter pr)
          ((c :: t).filter pr) := (ih true).trans (filter_cons_sublist pr c t)
      cases b with
      | true =>
        have hstep : collapseAux true (c :: t) = collapseAux true t := by
          simp [collapseAux, hw]
        rw [hstep]
        exact htail
      | false =>
        have hstep : collapseAux false (c :: t) = ' ' :: collapseAux true t := by
          simp [collapseAux, hw]
        rw [hstep]
        have hL : List.filter pr (' ' :: collapseAux true t) =
            List.filter pr (collapseAux true t) := by
          simp [List.filter_cons, hpr]
        rw [hL]
        exact htail
    · have hwf : isWsJS c = false := by simpa using hw
      have hstep : collapseAux b (c :: t) = c :: collapseAux false t := by
        simp [collapseAux, hwf]
      rw [hstep]
      simp only [List.filter_cons]
      by_cases h : pr c = true
      · rw [if_pos h, if_pos h]
        exact (ih false).cons₂ c
      · rw [if_neg h, if_neg h]
        exact ih false

theorem trimJS_sublist (l : List Char) : List.Sublist (trimJS l) l := by
  have h1 : List.Sublist (l.dropWhile isWsJS) l := List.dropWhile_sublist _
  have h2 : List.Sublist ((l.dropWhile isWsJS).reverse.dropWhile isWsJS)
      (l.dropWhile isWsJS).reverse := List.dropWhile_sublist _
  have h3 := List.reverse_sublist.mpr h2
  rw [List.reverse_reverse] at h3
  exact h3.trans h1

theorem spacedWs_collapseAux (l : List Char) : ∀ (b : Bool),
    SpacedWs (collapseAux b l) := by
  induction l with
  | nil => intro b; simp [collapseAux, SpacedWs]
  | cons c t ih =>
    intro b
    by_cases hw : isWsJS c = true
    · cases b with
      | true => simpa [collapseAux, hw] using ih true
      | false =>
        simp only [collapseAux, hw, if_true, if_false]
        intro x hx
        rcases List.mem_cons.mp hx with h | h
        · intro _; exact h
        · exact ih true x h
    · simp only [collapseAux, hw, if_false]
      intro x hx
      rcases List.mem_cons.mp hx with h | h
      · intro hxw
        rw [h] at hxw
        rw [hxw] at hw
        exact absurd rfl hw
      · exact ih false x h

theorem headNotWs_collapseAux_true (l : List Char) :
    HeadNotWs (collapseAux true l) := by
  induction l with
  | nil => simp [collapseAux, HeadNotWs]
  | cons c t ih =>
    by_cases hw : isWsJS c = true
    · simpa [collapseAux, hw] using ih
    · have hwf : isWsJS c = false := by simpa using hw
      have hstep : collapseAux true (c :: t) = c :: collapseAux false t := by
        simp [collapseAux, hwf]
      rw [hstep]
      intro x hx
      simp at hx
      subst hx
      exact hwf

theorem noWsRun_collapseAux (l : List Char) : ∀ (b : Bool),
    NoWsRun (collapseAux b l) := by
  induction l with
  | nil => intro b; simp [collapseAux, NoWsRun]
  | cons c t ih =>
    intro b
    by_cases hw : isWsJS c = true
    · cases b with
      | true =>
        have hstep : collapseAux true (c :: t) = collapseAux true t := by
          simp [collapseAux, hw]
        rw [hstep]
        exact ih true
      | false =>
        have hstep : collapseAux false (c :: t) = ' ' :: collapseAux true t := by
          simp [collapseAux, hw]
        rw [hstep, NoWsRun, List.chain'_cons']
        refine ⟨fun y hy => ?_, ih true⟩
        have := headNotWs_collapseAux_true t y hy
        intro hcon
        rw [this] at hcon
        exact absurd hcon.2 (by simp)
    · have hwf : isWsJS c = false := by simpa using hw
      have hstep : collapseAux b (c :: t) = c :: collapseAux false t := by
        simp [collapseAux, hwf]
      rw [hstep, NoWsRun, List.chain'_cons']
      refine ⟨fun y hy => ?_, ih false⟩
      intro hcon
      exact absurd hcon.1 hw

theorem collapseAux_true_of_head (l : List Char) (h : HeadNotWs l) :
    collapseAux true l = collapseAux false l := by
  cases l with
  | nil => rfl
  | cons c t =>
    have hc : isWsJS c = false := h c (by simp)
    simp [collapseAux, hc]

theorem collapseWs_eq_self (l : List Char) (h1 : SpacedWs l) (h2 : NoWsRun l) :
    collapseWs l = l := by
  rw [collapseWs]
  induction l with
  | nil => rfl
  | cons c t ih =>
    by_cases hw : isWsJS c = true
    · have hcsp : c = ' ' := h1 c (by simp) hw
      have hht : HeadNotWs t := by
        intro y hy
        rw [NoWsRun, List.chain'_cons'] at h2
        have := h2.1 y hy
        cases hyw : isWsJS y
        · rfl
        · exact absurd ⟨hw, hyw⟩ this
      have hstep : collapseAux false (c :: t) = ' ' :: collapseAux true t := by
        simp [collapseAux, hw]
      rw [hstep, collapseAux_true_of_head t hht]
      rw [ih (fun x hx => h1 x (List.mem_cons_of_mem c hx))
        (List.Chain'.tail h2)]
      rw [hcsp]
    · have hwf : isWsJS c = false := by simpa using hw
      have hstep : collapseAux false (c :: t) = c :: collapseAux false t := by
        simp [collapseAux, hwf]
      rw [hstep]
      rw [ih (fun x hx => h1 x (List.mem_cons_of_mem c hx))
        (List.Chain'.tail h2)]

theorem dropWhile_eq_self_of_head (p : Char → Bool) (l : List Char)
    (h : ∀ c ∈ l.head?, p c = false) : l.dropWhile p = l := by
  cases l with
  | nil => rfl
  | cons c t =>
    have hc : p c = false := h c (by simp)
    simp [List.dropWhile_cons, hc]

theorem headNotWs_dropWhile (l : List Char) :
    ∀ c ∈ (l.dropWhile isWsJS).head?, isWsJS c = false := by
  induction l with
  | nil => simp
  | cons c t ih =>
    by_cases hw : isWsJS c = true
    · simpa [List.dropWhile_cons, hw] using ih
    · have hwf : isWsJS c = false := by simpa using hw
      have hstep : List.dropWhile isWsJS (c :: t) = c :: t := by
        simp [List.dropWhile_cons, hwf]
      rw [hstep]
      intro x hx
      simp at hx
      subst hx
      exact hwf

theorem trimJS_eq_self (l : List Char) (hh : HeadNotWs l) (hl : LastNotWs l) :
    trimJS l = l := by
  rw [trimJS]
  rw [dropWhile_eq_self_of_head isWsJS l hh]
  rw [dropWhile_eq_self_of_head isWsJS l.reverse
    (by intro c hc; rw [List.head?_reverse] at hc; exact hl c hc)]
  exact List.reverse_reverse l

theorem getLast?_dropWhile (p : Char → Bool) (l : List Char)
    (h : l.dropWhile p ≠ []) : (l.dropWhile p).getLast? = l.getLast? := by
  induction l with
  | nil => rfl
  | cons c t ih =>
    by_cases hp : p c = true
    · rw [List.dropWhile_cons, if_pos hp] at h ⊢
      rw [ih h]
      have ht : t ≠ [] := by
        intro hnil
        rw [hnil] at h
        exact h rfl
      cases t with
      | nil => exact absurd rfl ht
      | cons y ys => rw [List.getLast?_cons_cons]
    · rw [List.dropWhile_cons, if_neg hp]

theorem trimJS_headNotWs (l : List Char) : HeadNotWs (trimJS l) := by
  rw [trimJS]
  intro c hc
  rw [List.head?_reverse] at hc
  by_cases hB : (l.dropWhile isWsJS).reverse.dropWhile isWsJS = []
  · rw [hB] at hc
    simp at hc
  · rw [getLast?_dropWhile isWsJS _ hB, List.getLast?_reverse] at hc
    exact headNotWs_dropWhile l c hc

theorem trimJS_lastNotWs (l : List Char) : LastNotWs (trimJS l) := by
  rw [trimJS]
  intro c hc
  rw [List.getLast?_reverse] at hc
  exact headNotWs_dropWhile _ c hc

theorem spacedWs_sublist (l₁ l₂ : List Char) (h : List.Sublist l₁ l₂)
    (hs : SpacedWs l₂) : SpacedWs l₁ :=
  fun c hc => hs c (h.subset hc)

theorem noWsRun_dropWhile (p : Char → Bool) (l : List Char) (h : NoWsRun l) :
    NoWsRun (l.dropWhile p) := by
  induction l with
  | nil => exact h
  | cons c t ih =>
    by_cases hp : p c = true
    · rw [List.dropWhile_cons, if_pos hp]
      exact ih (List.Chain'.tail h)
    · rw [List.dropWhile_cons, if_neg hp]
      exact h

theorem noWsRun_reverse (l : List Char) (h : NoWsRun l) : NoWsRun l.reverse := by
  rw [NoWsRun, List.chain'_reverse]
  exact List.Chain'.imp (fun a b hab hc => hab ⟨hc.2, hc.1⟩) h

theorem noWsRun_trimJS (l : List Char) (h : NoWsRun l) : NoWsRun (trimJS l) := by
  rw [trimJS]
  exact noWsRun_reverse _ (noWsRun_dropWhile _ _ (noWsRun_reverse _
    (noWsRun_dropWhile _ _ h)))

theorem wsClean_trim_collapse (u : List Char) : WsClean (trimJS (collapseWs u)) := by
  refine ⟨?_, ?_, ?_, ?_⟩
  · exact spacedWs_sublist _ _ (trimJS_sublist _) (spacedWs_collapseAux u false)
  · exact noWsRun_trimJS _ (noWsRun_collapseAux u false)
  · exact trimJS_headNotWs _
  · exact trimJS_lastNotWs _

theorem trim_collapse_eq_self (l : List Char) (h : WsClean l) :
    trimJS (collapseWs l) = l := by
  rw [collapseWs_eq_self l h.1 h.2.1]
  exact trimJS_eq_self l h.2.2.1 h.2.2.2

theorem joinSp_ne_nil (x : List Char) (t : List (List Char)) (hx : x ≠ []) :
    joinSp (x :: t) ≠ [] := by
  cases t with
  | nil => exact hx
  | cons y t2 =>
    show x ++ ' ' :: joinSp (y :: t2) ≠ []
    simp

theorem head?_joinSp (x : List Char) (t : List (List Char)) (hx : x ≠ []) :
    (joinSp (x :: t)).head? = x.head? := by
  cases t with
  | nil => rfl
  | cons y t2 =>
    show (x ++ ' ' :: joinSp (y :: t2)).head? = x.head?
    cases x with
    | nil => exact absurd rfl hx
    | cons a xs => simp

theorem wsClean_joinSp (ts : List (List Char))
    (h : ∀ x ∈ ts, x ≠ [] ∧ WsClean x) : WsClean (joinSp ts) := by
  induction ts with
  | nil =>
    refine ⟨?_, ?_, ?_, ?_⟩ <;> simp [SpacedWs, NoWsRun, HeadNotWs, LastNotWs, joinSp]
  | cons x t ih =>
    cases t with
    | nil => simpa [joinSp] using (h x (by simp)).2
    | cons y t2 =>
      obtain ⟨hxne, hxc⟩ := h x (by simp)
      have hK := ih (fun z hz => h z (List.mem_cons_of_mem x hz))
      have hyne : y ≠ [] := (h y (by simp)).1
      have hKne : joinSp (y :: t2) ≠ [] := joinSp_ne_nil y t2 hyne
      show WsClean (x ++ ' ' :: joinSp (y :: t2))
      refine ⟨?_, ?_, ?_, ?_⟩
      · intro c hc
        rcases List.mem_append.mp hc with hcx | hck
        · exact hxc.1 c hcx
        · rcases List.mem_cons.mp hck with rfl | hck2
          · intro _; rfl
          · exact hK.1 c hck2
      · rw [NoWsRun, List.chain'_append]
        refine ⟨hxc.2.1, ?_, ?_⟩
        · rw [List.chain'_cons']
          refine ⟨fun z hz => ?_, hK.2.1⟩
          intro hcon
          have := hK.2.2.1 z hz
          rw [this] at hcon
          exact absurd hcon.2 (by simp)
        · intro a ha b hb
          simp only [List.head?_cons, Option.mem_def, Option.some.injEq] at hb
          intro hcon
          have := hxc.2.2.2 a ha
          rw [this] at hcon
          exact absurd hcon.1 (by simp)
      · intro c hc
        cases x with
        | nil => exact absurd rfl hxne
        | cons a xs =>
          have hhead : isWsJS a = false := hxc.2.2.1 a (by simp)
          simp only [List.cons_append, List.head?_cons, Option.mem_def,
            Option.some.injEq] at hc
          rw [← hc]
          exact hhead
      · intro c hc
        rw [List.getLast?_append_of_ne_nil x (by simp)] at hc
        cases hKcase : joinSp (y :: t2) with
        | nil => exact absurd hKcase hKne
        | cons k ks =>
          rw [hKcase, List.getLast?_cons_cons] at hc
          have := hK.2.2.2 c
          rw [hKcase] at this
          exact this hc

/-! ## Facts about `lowerChar` and the delimiters -/

theorem char_eq_of_toNat (c d : Char) (h : c.toNat = d.toNat) : c = d :=
  Char.ext (UInt32.ext h)

theorem toNat_ofNat_lowercase (n : Nat) (h1 : 97 ≤ n) (h2 : n ≤ 122) :
    (Char.ofNat n).toNat = n := by
  interval_cases n <;> decide

theorem lowerChar_toNat (c : Char) :
    (lowerChar c).toNat =
      if 65 ≤ c.toNat ∧ c.toNat ≤ 90 then c.toNat + 32 else c.toNat := by
  rw [lowerChar]
  by_cases h : 65 ≤ c.toNat ∧ c.toNat ≤ 90
  · rw [if_pos (by simp [h.1, h.2]), if_pos h]
    exact toNat_ofNat_lowercase _ (by omega) (by omega)
  · rw [if_neg (by simpa [Bool.and_eq_true, decide_eq_true_iff] using h), if_neg h]

theorem lowerChar_eq_nonletter (c d : Char) (hd : lowerChar c = d)
    (h1 : ¬(65 ≤ d.toNat ∧ d.toNat ≤ 90))
    (h2 : ¬(97 ≤ d.toNat ∧ d.toNat ≤ 122)) : c = d := by
  apply char_eq_of_toNat
  have ht := congrArg Char.toNat hd
  rw [lowerChar_toNat] at ht
  by_cases h : 65 ≤ c.toNat ∧ c.toNat ≤ 90
  · rw [if_pos h] at ht
    omega
  · rwa [if_neg h] at ht

/-! ## The output of `normalizeWhisperText`

Every non-empty output is the cleaned remainder `t`: whitespace-normal,
bracket/paren/brace span-free, containing a letter or digit, and with an
alphanumeric token outside the non-speech vocabulary. -/

theorem hasPair_trim_collapse (op cl : Char) (hop : op ≠ ' ') (hcl : cl ≠ ' ')
    (u : List Char) (h : hasPair op cl u = false) :
    hasPair op cl (trimJS (collapseWs u)) = false := by
  have hpr : (fun c => decide (c = op) || decide (c = cl)) ' ' = false := by
    simp [Ne.symm hop, Ne.symm hcl]
  have h1 : hasPair op cl (collapseWs u) = false :=
    hasPair_false_of_filter_sublist op cl _ _
      (filter_collapseAux_sublist _ hpr u false) h
  exact hasPair_false_of_filter_sublist op cl _ _
    ((trimJS_sublist (collapseWs u)).filter _) h1

theorem hasPair_strip_other (op cl p q : Char) (hop : op ≠ ' ') (hcl : cl ≠ ' ')
    (u : List Char) (h : hasPair op cl u = false) :
    hasPair op cl (stripPair p q u) = false := by
  have hpr : (fun c => decide (c = op) || decide (c = cl)) ' ' = false := by
    simp [Ne.symm hop, Ne.symm hcl]
  exact hasPair_false_of_filter_sublist op cl _ _
    (filter_stripPair_sublist _ hpr p q u) h

theorem cleanPipeline_no_bracket (t0 : List Char) :
    hasPair '[' ']' (cleanPipeline t0) = false := by
  rw [cleanPipeline]
  apply hasPair_trim_collapse _ _ (by decide) (by decide)
  apply hasPair_strip_other _ _ _ _ (by decide) (by decide)
  apply hasPair_strip_other _ _ _ _ (by decide) (by decide)
  exact hasPair_stripPair _ _ (by decide) t0

theorem cleanPipeline_no_paren (t0 : List Char) :
    hasPair '(' ')' (cleanPipeline t0) = false := by
  rw [cleanPipeline]
  apply hasPair_trim_collapse _ _ (by decide) (by decide)
  apply hasPair_strip_other _ _ _ _ (by decide) (by decide)
  exact hasPair_stripPair _ _ (by decide) _

theorem cleanPipeline_no_brace (t0 : List Char) :
    hasPair '{' '}' (cleanPipeline t0) = false := by
  rw [cleanPipeline]
  apply hasPair_trim_collapse _ _ (by decide) (by decide)
  exact hasPair_stripPair _ _ (by decide) _

theorem cleanPipeline_wsClean (t0 : List Char) : WsClean (cleanPipeline t0) :=
  wsClean_trim_collapse _

theorem normalize_cases (raw : String) :
    normalizeWhisperText raw = "" ∨
    ∃ t : List Char,
      normalizeWhisperText raw = String.mk t ∧
      t = cleanPipeline (trimJS raw.data) ∧
      t ≠ [] ∧ t.any isAlnum = true ∧
      NON_SPEECH_NORMALIZED.contains (String.mk (tokenOf t)) = false := by
  simp only [normalizeWhisperText]
  split_ifs with h0 h1 h2 h3 h4 h5 h6 h7
  all_goals try (left; rfl)
  all_goals (right; refine ⟨_, rfl, by rw [cleanPipeline], h1, by simpa using h2, ?_⟩)
  · simpa using h6
  · simpa using h7

theorem normalize_fixpoint (t : List Char)
    (hws : WsClean t) (hne : t ≠ []) (hal : t.any isAlnum = true)
    (hb1 : hasPair '[' ']' t = false) (hb2 : hasPair '(' ')' t = false)
    (hb3 : hasPair '{' '}' t = false)
    (htok : NON_SPEECH_NORMALIZED.contains (String.mk (tokenOf t)) = false) :
    normalizeWhisperText (String.mk t) = String.mk t := by
  have hdata : (String.mk t).data = t := rfl
  have htrim : trimJS t = t := trimJS_eq_self t hws.2.2.1 hws.2.2.2
  have hcoll : collapseWs t = t := collapseWs_eq_self t hws.1 hws.2.1
  have hbranch : ¬(((t.map lowerChar).head? = some '[') ∧
      ((t.map lowerChar).getLast? = some ']')) := by
    rintro ⟨hh, hl⟩
    rw [List.head?_map] at hh
    rw [List.getLast?_map] at hl
    cases ht : t.head? with
    | none =>
      rw [ht] at hh
      simp at hh
    | some c =>
      rw [ht] at hh
      simp at hh
      have hc : c = '[' := lowerChar_eq_nonletter c '[' hh (by decide) (by decide)
      cases hg : t.getLast? with
      | none =>
        rw [hg] at hl
        simp at hl
      | some d =>
        rw [hg] at hl
        simp at hl
        have hd : d = ']' := lowerChar_eq_nonletter d ']' hl (by decide) (by decide)
        cases t with
        | nil => simp at ht
        | cons x rest =>
          simp only [List.head?_cons, Option.some.injEq] at ht
          cases rest with
          | nil =>
            simp only [List.getLast?_singleton, Option.some.injEq] at hg
            rw [ht, hc] at hg
            rw [hd] at hg
            cases hg
          | cons y ys =>
            rw [List.getLast?_cons_cons] at hg
            have hdin : d ∈ y :: ys := List.mem_of_mem_getLast? hg
            have hx : x = '[' := by rw [ht, hc]
            have : hasPair '[' ']' (x :: y :: ys) = true := by
              simp only [hasPair, Bool.or_eq_true, Bool.and_eq_true,
                List.any_eq_true]
              left
              refine ⟨by simp [hx], d, hdin, by simp [hd]⟩
            rw [this] at hb1
            cases hb1
  have e2 : trimJS (collapseWs (stripPair '{' '}' (stripPair '(' ')'
      (stripPair '[' ']' t)))) = t := by
    rw [stripPair_eq_self _ _ _ hb1, stripPair_eq_self _ _ _ hb2,
      stripPair_eq_self _ _ _ hb3, hcoll, htrim]
  simp only [normalizeWhisperText, hdata, htrim, e2]
  rw [if_neg hne, if_neg hne, if_neg (by simp [hal]), if_neg hbranch,
    if_neg (by rw [htok]; simp)]

theorem tokenOf_ne_nil (t : List Char) (hal : t.any isAlnum = true) :
    tokenOf t ≠ [] := by
  rw [List.any_eq_true] at hal
  obtain ⟨c, hc, hca⟩ := hal
  have hlc : isLowerAlnum (lowerChar c) = true := by
    rw [isAlnum] at hca
    simp only [Bool.or_eq_true, Bool.and_eq_true, decide_eq_true_iff] at hca
    have hto := lowerChar_toNat c
    rw [isLowerAlnum]
    simp only [Bool.or_eq_true, Bool.and_eq_true, decide_eq_true_iff]
    rcases hca with (h | h) | h
    · rw [if_neg (by omega)] at hto
      omega
    · rw [if_pos (by omega)] at hto
      omega
    · rw [if_neg (by omega)] at hto
      omega
  have hmem : lowerChar c ∈ tokenOf t := by
    rw [tokenOf, List.mem_filter]
    exact ⟨List.mem_map_of_mem lowerChar hc, hlc⟩
  exact List.ne_nil_of_mem hmem

theorem inner_eq_tokenOf (t : List Char)
    (hh : (t.map lowerChar).head? = some '[')
    (hl : (t.map lowerChar).getLast? = some ']') :
    ((t.map lowerChar).drop 1).dropLast.filter isLowerAlnum = tokenOf t := by
  rw [tokenOf]
  cases hL : t.map lowerChar with
  | nil =>
    rw [hL] at hh
    simp at hh
  | cons x rest =>
    rw [hL] at hh hl
    simp only [List.head?_cons, Option.some.injEq] at hh
    cases hrest : rest.getLast? with
    | none =>
      rw [List.getLast?_eq_none_iff] at hrest
      subst hrest
      simp only [List.getLast?_singleton, Option.some.injEq] at hl
      rw [hl] at hh
      cases hh
    | some d =>
      have hrne : rest ≠ [] := by
        intro hcon
        rw [hcon] at hrest
        cases hrest
      have hgl : (x :: rest).getLast? = some d := by
        cases rest with
        | nil => exact absurd rfl hrne
        | cons y ys => rw [List.getLast?_cons_cons]; exact hrest
      rw [hgl] at hl
      simp only [Option.some.injEq] at hl
      subst hl
      have hdecomp : rest.dropLast ++ [']'] = rest := by
        have h1 := List.dropLast_append_getLast hrne
        have h2 : rest.getLast hrne = ']' := by
          have h3 := List.getLast?_eq_getLast rest hrne
          rw [h3] at hrest
          simpa using hrest
        rw [h2] at h1
        exact h1
      subst hh
      simp only [List.drop_succ_cons, List.drop_zero]
      rw [← hdecomp]
      rw [List.dropLast_concat]
      rw [List.filter_cons]
      rw [if_neg (by decide)]
      rw [List.filter_append]
      have : List.filter isLowerAlnum [']'] = [] := by decide
      rw [this, List.append_nil]

theorem normalize_eq_spec (raw : String) :
    normalizeWhisperText raw = specNormalizeWhisperText raw := by
  simp only [normalizeWhisperText, specNormalizeWhisperText]
  by_cases h0 : trimJS raw.data = []
  · rw [if_pos h0, h0, stripPair_nil, stripPair_nil, stripPair_nil]
    have hz : trimJS (collapseWs []) = [] := rfl
    rw [hz, if_pos rfl]
  · rw [if_neg h0]
    generalize trimJS (collapseWs (stripPair '{' '}' (stripPair '(' ')'
      (stripPair '[' ']' (trimJS raw.data))))) = T
    by_cases h1 : T = []
    · rw [if_pos h1, if_pos h1]
    · rw [if_neg h1, if_neg h1]
      by_cases h2 : T.any isAlnum = true
      · rw [if_neg (show ¬¬(T.any isAlnum = true) by simp [h2])]
        rw [if_neg (show ¬¬(T.any isAlnum = true) by simp [h2])]
        by_cases h3 : ((T.map lowerChar).head? = some '[') ∧
            ((T.map lowerChar).getLast? = some ']')
        · rw [if_pos h3, inner_eq_tokenOf _ h3.1 h3.2,
            if_neg (tokenOf_ne_nil _ h2)]
          by_cases h6 : NON_SPEECH_NORMALIZED.contains
              (String.mk (tokenOf T)) = true
          · rw [if_pos h6, if_pos h6]
          · rw [if_neg h6, if_neg h6]
        · rw [if_neg h3]
      · rw [if_pos (show ¬(T.any isAlnum = true) from h2)]
        rw [if_pos (show ¬(T.any isAlnum = true) from h2)]

theorem drainFuel_congr : ∀ (f1 : Nat), ∀ (f2 : Nat) (s : Sess),
    s.cur ≤ f1 → s.cur ≤ f2 → drainFuel f1 s = drainFuel f2 s := by
  intro f1
  induction f1 with
  | zero =>
    intro f2 s h1 h2
    have hz : s.cur = 0 := Nat.le_zero.mp h1
    cases f2 with
    | zero => rfl
    | succ f2 =>
      simp only [drainFuel]
      rw [if_neg (by rw [hz]; simp [SEG_BYTES])]
  | succ f1 ih =>
    intro f2 s h1 h2
    cases f2 with
    | zero =>
      have hz : s.cur = 0 := Nat.le_zero.mp h2
      simp only [drainFuel]
      rw [if_neg (by rw [hz]; simp [SEG_BYTES])]
    | succ f2 =>
      by_cases hb : SEG_BYTES ≤ s.cur
      · simp only [drainFuel, if_pos hb]
        rw [ih f2]
        · simp only [SEG_BYTES] at h1 hb ⊢
          simp
          omega
        · simp only [SEG_BYTES] at h2 hb ⊢
          simp
          omega
      · simp only [drainFuel, if_neg hb]

theorem drainFuel_succ (f : Nat) (s : Sess) :
    drainFuel (f + 1) s =
      if SEG_BYTES ≤ s.cur then
        let j : Job :=
          { gen := s.transcriptionGen, idx := s.segIdx,
            kind := JobKind.audioSeg }
        let s2 := { s with
          cur := s.cur - SEG_BYTES
          segIdx := s.segIdx + 1
          jobs := s.jobs ++ [j] }
        let r := drainFuel f s2
        (r.1, j :: r.2)
      else (s, []) := rfl

/-- Any sufficient fuel computes the loop. -/
theorem drainFuel_eq_drainSegments (f : Nat) (s : Sess) (h : s.cur ≤ f) :
    drainFuel f s = drainSegments s :=
  drainFuel_congr f s.cur s h (Nat.le_refl _)

/-- `drainSegments` satisfies the loop equation of the while loop. -/
theorem drainSegments_loop (s : Sess) :
    drainSegments s =
      if SEG_BYTES ≤ s.cur then
        let j : Job :=
          { gen := s.transcriptionGen, idx := s.segIdx,
            kind := JobKind.audioSeg }
        let s2 := { s with
          cur := s.cur - SEG_BYTES
          segIdx := s.segIdx + 1
          jobs := s.jobs ++ [j] }
        let r := drainSegments s2
        (r.1, j :: r.2)
      else (s, []) := by
  by_cases hb : SEG_BYTES ≤ s.cur
  · rw [if_pos hb]
    obtain ⟨k, hk⟩ : ∃ k, s.cur = k + 1 :=
      ⟨s.cur - 1, by simp only [SEG_BYTES] at hb; omega⟩
    show drainFuel s.cur s = _
    rw [hk, drainFuel_succ, hk]
    rw [if_pos (hk ▸ hb)]
    simp only []
    rw [drainFuel_eq_drainSegments k]
    show k + 1 - SEG_BYTES ≤ k
    simp only [SEG_BYTES]
    omega
  · rw [if_neg hb]
    show drainFuel s.cur s = _
    cases hc : s.cur with
    | zero => rfl
    | succ k =>
      rw [drainFuel_succ, if_neg hb]

/-- Two lists of index-keyed results that are permutations of each other
and both strictly sorted by index are equal; hence the JS comparator
sort of the arrival-ordered `results` array is the index-sorted list,
whatever the arrival order was. -/
theorem sortByIdx_eq_of_perm (l₁ l₂ : List (Nat × String))
    (hperm : l₁.Perm l₂)
    (hsorted : List.Sorted (fun a b : Nat × String => a.1 < b.1) l₂) :
    sortByIdx l₁ = l₂ := by
  have hps : (sortByIdx l₁).Perm l₂ :=
    (List.perm_insertionSort _ _).trans hperm
  have hsle : List.Sorted (fun a b : Nat × String => a.1 ≤ b.1)
      (sortByIdx l₁) := List.sorted_insertionSort _ _
  have hne2 : List.Pairwise (fun a b : Nat × String => a.1 ≠ b.1) l₂ :=
    List.Pairwise.imp (fun h => Nat.ne_of_lt h) hsorted
  have hne1 : List.Pairwise (fun a b : Nat × String => a.1 ≠ b.1)
      (sortByIdx l₁) :=
    (List.Perm.pairwise_iff (fun hab => Ne.symm hab) hps).mpr hne2
  have hslt : List.Sorted (fun a b : Nat × String => a.1 < b.1)
      (sortByIdx l₁) := by
    rw [List.Sorted]
    exact List.Pairwise.imp₂ (fun a b hle hne => Nat.lt_of_le_of_ne hle hne)
      hsle hne1
  exact List.eq_of_perm_of_sorted hps hslt hsorted

/-! ## Run composition -/

theorem run_append (ora : Oracle) (es₁ es₂ : List Event) : ∀ (m : Machine),
    run ora m (es₁ ++ es₂) =
      ((run ora (run ora m es₁).1 es₂).1,
        (run ora m es₁).2 ++ (run ora (run ora m es₁).1 es₂).2) := by
  induction es₁ with
  | nil => intro m; simp [run]
  | cons e es ih =>
    intro m
    simp only [List.cons_append, run, List.append_eq]
    rw [ih]
    simp [List.append_assoc]

theorem validRun_append (ora : Oracle) (es₁ es₂ : List Event) :
    ∀ (m : Machine),
    validRun ora m (es₁ ++ es₂) =
      (validRun ora m es₁ && validRun ora (run ora m es₁).1 es₂) := by
  induction es₁ with
  | nil => intro m; simp [validRun, run]
  | cons e es ih =>
    intro m
    simp only [List.cons_append, validRun, run, List.append_eq]
    rw [ih]
    simp [Bool.and_assoc]

theorem finalAsrTexts_append (l₁ l₂ : List Msg) :
    finalAsrTexts (l₁ ++ l₂) = finalAsrTexts l₁ ++ finalAsrTexts l₂ := by
  simp [finalAsrTexts, List.filterMap_append]

theorem llmQueryCount_append (l₁ l₂ : List Msg) :
    llmQueryCount (l₁ ++ l₂) = llmQueryCount l₁ + llmQueryCount l₂ := by
  simp [llmQueryCount, List.filter_append]

theorem stepJobDone_current (ora : Oracle) (m : Machine) (j : Job)
    (hjg : j.gen = m.sess.transcriptionGen) :
    (stepJobDone ora m j).1.sess.results =
        m.sess.results ++ (contribOf ora j).toList ∧
    (stepJobDone ora m j).1.sess.transcriptionGen =
        m.sess.transcriptionGen ∧
    (stepJobDone ora m j).1.sess.sessionId = m.sess.sessionId ∧
    (stepJobDone ora m j).1.barriers = m.barriers ∧
    (stepJobDone ora m j).1.spawned = m.spawned ∧
    (stepJobDone ora m j).1.settled = m.settled ++ [j] ∧
    finalAsrTexts (stepJobDone ora m j).2 = [] ∧
    llmQueryCount (stepJobDone ora m j).2 = 0 := by
  cases hora : ora j.gen j.idx with
  | none =>
    simp [stepJobDone, hora, contribOf, cleanedOf, finalAsrTexts,
      llmQueryCount]
  | some raw =>
    have hcl : cleanedOf ora j.gen j.idx = normalizeWhisperText raw := by
      rw [cleanedOf, hora]
    simp only [stepJobDone, hora]
    rw [if_neg (by simp [hjg])]
    by_cases hemp : normalizeWhisperText raw = ""
    · rw [if_pos hemp]
      simp [contribOf, hcl, hemp, finalAsrTexts, llmQueryCount]
    · rw [if_neg hemp]
      cases hk : j.kind with
      | trailing =>
        simp [contribOf, hcl, hemp, finalAsrTexts, llmQueryCount]
      | audioSeg =>
        by_cases hcnt : countWords (aggregateTranscript (m.sess.results ++
            [(j.idx, normalizeWhisperText raw)])) < MIN_TRANSCRIPT_WORDS
        · rw [if_pos hcnt]
          simp [contribOf, hcl, hemp, finalAsrTexts, llmQueryCount]
        · rw [if_neg hcnt]
          simp [contribOf, hcl, hemp, finalAsrTexts, llmQueryCount]

theorem run_jobDones (ora : Oracle) (π : List Job) : ∀ (m : Machine),
    (∀ j ∈ π, j.gen = m.sess.transcriptionGen) →
    (run ora m (π.map Event.jobDone)).1.sess.results =
        m.sess.results ++ π.filterMap (contribOf ora) ∧
    (run ora m (π.map Event.jobDone)).1.sess.transcriptionGen =
        m.sess.transcriptionGen ∧
    (run ora m (π.map Event.jobDone)).1.sess.sessionId = m.sess.sessionId ∧
    (run ora m (π.map Event.jobDone)).1.barriers = m.barriers ∧
    (run ora m (π.map Event.jobDone)).1.spawned = m.spawned ∧
    (run ora m (π.map Event.jobDone)).1.settled = m.settled ++ π ∧
    finalAsrTexts (run ora m (π.map Event.jobDone)).2 = [] ∧
    llmQueryCount (run ora m (π.map Event.jobDone)).2 = 0 := by
  induction π with
  | nil =>
    intro m hgen
    simp [run, finalAsrTexts, llmQueryCount]
  | cons j rest ih =>
    intro m hgen
    have hd := stepJobDone_current ora m j (hgen j (by simp))
    have hstep : step ora m (Event.jobDone j) = stepJobDone ora m j := rfl
    have hgen2 : ∀ j2 ∈ rest, j2.gen =
        (stepJobDone ora m j).1.sess.transcriptionGen := by
      intro j2 hj2
      rw [hd.2.1]
      exact hgen j2 (List.mem_cons_of_mem j hj2)
    have hr := ih (stepJobDone ora m j).1 hgen2
    simp only [List.map_cons, run, hstep]
    refine ⟨?_, ?_, ?_, ?_, ?_, ?_, ?_, ?_⟩
    · rw [hr.1, hd.1, List.filterMap_cons]
      cases hc : contribOf ora j with
      | none => simp
      | some p => simp
    · rw [hr.2.1, hd.2.1]
    · rw [hr.2.2.1, hd.2.2.1]
    · rw [hr.2.2.2.1, hd.2.2.2.1]
    · rw [hr.2.2.2.2.1, hd.2.2.2.2.1]
    · rw [hr.2.2.2.2.2.1, hd.2.2.2.2.2.1]
      simp
    · rw [finalAsrTexts_append, hr.2.2.2.2.2.2.1, hd.2.2.2.2.2.2.1]
      rfl
    · rw [llmQueryCount_append, hr.2.2.2.2.2.2.2, hd.2.2.2.2.2.2.2]

theorem validRun_jobDones (ora : Oracle) (π : List Job) : ∀ (m : Machine),
    π.Nodup →
    (∀ j ∈ π, j ∈ m.spawned) →
    (∀ j ∈ π, j ∉ m.settled) →
    validRun ora m (π.map Event.jobDone) = true := by
  induction π with
  | nil =>
    intro m _ _ _
    rfl
  | cons j rest ih =>
    intro m hnd hsp hst
    have hset : (stepJobDone ora m j).1.settled = m.settled ++ [j] := by
      cases hora : ora j.gen j.idx with
      | none => simp [stepJobDone, hora]
      | some raw =>
        simp only [stepJobDone, hora]
        by_cases hg : j.gen ≠ m.sess.transcriptionGen
        · rw [if_pos hg]
        · rw [if_neg hg]
          by_cases hemp : normalizeWhisperText raw = ""
          · rw [if_pos hemp]
          · rw [if_neg hemp]
            cases j.kind with
            | trailing => rfl
            | audioSeg =>
              by_cases hcnt : countWords (aggregateTranscript (m.sess.results ++
                  [(j.idx, normalizeWhisperText raw)])) < MIN_TRANSCRIPT_WORDS
              · rw [if_pos hcnt]
              · rw [if_neg hcnt]
    have hspn : (stepJobDone ora m j).1.spawned = m.spawned := by
      cases hora : ora j.gen j.idx with
      | none => simp [stepJobDone, hora]
      | some raw =>
        simp only [stepJobDone, hora]
        by_cases hg : j.gen ≠ m.sess.transcriptionGen
        · rw [if_pos hg]
        · rw [if_neg hg]
          by_cases hemp : normalizeWhisperText raw = ""
          · rw [if_pos hemp]
          · rw [if_neg hemp]
            cases j.kind with
            | trailing => rfl
            | audioSeg =>
              by_cases hcnt : countWords (aggregateTranscript (m.sess.results ++
                  [(j.idx, normalizeWhisperText raw)])) < MIN_TRANSCRIPT_WORDS
              · rw [if_pos hcnt]
              · rw [if_neg hcnt]
    simp only [List.map_cons, validRun, Bool.and_eq_true]
    refine ⟨?_, ?_⟩
    · simp only [validEvent, Bool.and_eq_true]
      refine ⟨List.elem_eq_true_of_mem (hsp j (by simp)), ?_⟩
      have : m.settled.contains j = false := by
        cases hc : m.settled.contains j
        · rfl
        · exact absurd (List.mem_of_elem_eq_true hc) (hst j (by simp))
      rw [this]
      rfl
    · have hstep : step ora m (Event.jobDone j) = stepJobDone ora m j := rfl
      rw [hstep]
      apply ih
      · exact hnd.of_cons
      · intro j2 hj2
        rw [hspn]
        exact hsp j2 (List.mem_cons_of_mem j hj2)
      · intro j2 hj2
        rw [hset]
        simp only [List.mem_append, List.mem_singleton, not_or]
        refine ⟨hst j2 (List.mem_cons_of_mem j hj2), ?_⟩
        intro hcon
        rw [hcon] at hj2
        exact (List.nodup_cons.mp hnd).1 hj2

theorem canonicalPairs_eq_filterMap (ora : Oracle) (g : Nat)
    (idxs : List Nat) :
    canonicalPairs ora g idxs =
      (List.insertionSort (fun a b => a ≤ b) idxs).filterMap
        (contribNat ora g) := rfl

theorem contribOf_eq_contribNat (ora : Oracle) (g : Nat) (J : List Job)
    (hgen : ∀ j ∈ J, j.gen = g) :
    J.filterMap (contribOf ora) =
      (J.map Job.idx).filterMap (contribNat ora g) := by
  induction J with
  | nil => rfl
  | cons j rest ih =>
    have hj : j.gen = g := hgen j (by simp)
    have hrest := ih (fun j2 hj2 => hgen j2 (List.mem_cons_of_mem j hj2))
    simp only [List.filterMap_cons, List.map_cons]
    rw [hrest]
    have : contribOf ora j = contribNat ora g j.idx := by
      rw [contribOf, contribNat, hj]
    rw [this]

theorem mem_canonicalPairs_text_ne (ora : Oracle) (g : Nat)
    (idxs : List Nat) (p : Nat × String) (hp : p ∈ canonicalPairs ora g idxs) :
    p.2 ≠ "" := by
  rw [canonicalPairs_eq_filterMap] at hp
  rw [List.mem_filterMap] at hp
  obtain ⟨i, -, hfi⟩ := hp
  rw [contribNat] at hfi
  by_cases hcl : cleanedOf ora g i = ""
  · rw [if_pos hcl] at hfi
    cases hfi
  · rw [if_neg hcl] at hfi
    simp only [Option.some.injEq] at hfi
    rw [← hfi]
    exact hcl

theorem mem_canonicalPairs_text_cleaned (ora : Oracle) (g : Nat)
    (idxs : List Nat) (p : Nat × String) (hp : p ∈ canonicalPairs ora g idxs) :
    p.2 = cleanedOf ora g p.1 := by
  rw [canonicalPairs_eq_filterMap] at hp
  rw [List.mem_filterMap] at hp
  obtain ⟨i, -, hfi⟩ := hp
  rw [contribNat] at hfi
  by_cases hcl : cleanedOf ora g i = ""
  · rw [if_pos hcl] at hfi
    cases hfi
  · rw [if_neg hcl] at hfi
    simp only [Option.some.injEq] at hfi
    rw [← hfi]

theorem canonicalPairs_sorted (ora : Oracle) (g : Nat) (idxs : List Nat)
    (hnodup : idxs.Nodup) :
    List.Sorted (fun a b : Nat × String => a.1 < b.1)
      (canonicalPairs ora g idxs) := by
  have hsle : List.Sorted (fun a b : Nat => a ≤ b)
      (List.insertionSort (fun a b => a ≤ b) idxs) :=
    List.sorted_insertionSort _ _
  have hperm : (List.insertionSort (fun a b => a ≤ b) idxs).Perm idxs :=
    List.perm_insertionSort _ _
  have hnds : (List.insertionSort (fun a b => a ≤ b) idxs).Nodup :=
    hperm.nodup_iff.mpr hnodup
  have hslt : List.Pairwise (fun a b : Nat => a < b)
      (List.insertionSort (fun a b => a ≤ b) idxs) := by
    have := List.Pairwise.imp₂ (fun (a b : Nat) hle hne =>
      Nat.lt_of_le_of_ne hle hne) hsle hnds
    exact this
  rw [canonicalPairs_eq_filterMap, List.Sorted]
  apply List.Pairwise.filterMap (contribNat ora g)
    (fun a b hab x hx y hy => ?_) hslt
  rw [contribNat] at hx hy
  by_cases ha : cleanedOf ora g a = ""
  · rw [if_pos ha] at hx
    cases hx
  · rw [if_neg ha] at hx
    by_cases hb : cleanedOf ora g b = ""
    · rw [if_pos hb] at hy
      cases hy
    · rw [if_neg hb] at hy
      simp only [Option.mem_def, Option.some.injEq] at hx hy
      rw [← hx, ← hy]
      exact hab

theorem normalize_output_wsClean (raw : String)
    (h : normalizeWhisperText raw ≠ "") :
    WsClean (normalizeWhisperText raw).data ∧
      (normalizeWhisperText raw).data ≠ [] := by
  rcases normalize_cases raw with hc | ⟨t, hval, hdef, hne, -, -⟩
  · exact absurd hc h
  · rw [hval]
    exact ⟨hdef ▸ cleanPipeline_wsClean _, hne⟩

theorem cleanedOf_wsClean (ora : Oracle) (g i : Nat)
    (h : cleanedOf ora g i ≠ "") :
    WsClean (cleanedOf ora g i).data ∧ (cleanedOf ora g i).data ≠ [] := by
  cases hora : ora g i with
  | none =>
    rw [cleanedOf, hora] at h
    exact absurd rfl h
  | some raw =>
    have hc : cleanedOf ora g i = normalizeWhisperText raw := by
      rw [cleanedOf, hora]
    rw [hc] at h ⊢
    exact normalize_output_wsClean raw h

theorem assemble_filterMap_eq_canonical (ora : Oracle) (g : Nat)
    (π J : List Job) (hperm : π.Perm J) (hgen : ∀ j ∈ J, j.gen = g)
    (hidx : (J.map Job.idx).Nodup) :
    assembleTranscript (π.filterMap (contribOf ora)) =
      canonicalTranscript ora g (J.map Job.idx) := by
  have hp1 : (π.filterMap (contribOf ora)).Perm
      (canonicalPairs ora g (J.map Job.idx)) := by
    have h1 : (π.filterMap (contribOf ora)).Perm
        (J.filterMap (contribOf ora)) := hperm.filterMap _
    rw [contribOf_eq_contribNat ora g J hgen] at h1
    have h2 : ((J.map Job.idx).filterMap (contribNat ora g)).Perm
        ((List.insertionSort (fun a b => a ≤ b)
          (J.map Job.idx)).filterMap (contribNat ora g)) :=
      (List.perm_insertionSort _ _).symm.filterMap _
    rw [← canonicalPairs_eq_filterMap] at h2
    exact h1.trans h2
  have hsorted := canonicalPairs_sorted ora g (J.map Job.idx) hidx
  have hs : sortByIdx (π.filterMap (contribOf ora)) =
      canonicalPairs ora g (J.map Job.idx) :=
    sortByIdx_eq_of_perm _ _ hp1 hsorted
  rw [assembleTranscript, hs]
  have hfil : (canonicalPairs ora g (J.map Job.idx)).filter
      (fun p => p.2 ≠ "") = canonicalPairs ora g (J.map Job.idx) :=
    List.filter_eq_self.mpr (fun p hp => by
      simpa using mem_canonicalPairs_text_ne ora g _ p hp)
  rw [hfil]
  have hjoin : trimJS (collapseWs (joinSp
      ((canonicalPairs ora g (J.map Job.idx)).map (fun p => p.2.data)))) =
      joinSp ((canonicalPairs ora g (J.map Job.idx)).map
        (fun p => p.2.data)) := by
    apply trim_collapse_eq_self
    apply wsClean_joinSp
    intro x hx
    rw [List.mem_map] at hx
    obtain ⟨p, hp, hpx⟩ := hx
    have hne := mem_canonicalPairs_text_ne ora g _ p hp
    have hcl := mem_canonicalPairs_text_cleaned ora g _ p hp
    have := cleanedOf_wsClean ora g p.1 (hcl ▸ hne)
    rw [← hcl] at this
    rw [← hpx]
    exact ⟨this.2, this.1⟩
  rw [hjoin]
  rw [canonicalTranscript]

/-! ## One finalized turn, end to end -/

theorem stepBarrier_finalAsr (m : Machine) (i : Nat) :
    finalAsrTexts (stepBarrier m i).2 =
      [if countWords (assembleTranscript m.sess.results) <
          MIN_TRANSCRIPT_WORDS then ""
        else assembleTranscript m.sess.results] := by
  simp only [stepBarrier]
  by_cases h : countWords (assembleTranscript m.sess.results) <
      MIN_TRANSCRIPT_WORDS
  · rw [if_pos h, if_pos h]
    rfl
  · rw [if_neg h, if_neg h]
    cases m.sess.sessionId with
    | none => rfl
    | some sid => rfl

/-- Any arrival order of a turn's job completions, followed by the
`allSettled` barrier, is a valid schedule and sends exactly one
`final_asr`, whose text depends only on the canonical transcript (in
particular not on the arrival order): the canonical transcript itself
when it meets the word minimum, the empty string otherwise. -/
theorem run_turn_final (ora : Oracle) (m : Machine) (J π : List Job)
    (hperm : π.Perm J)
    (hgen : ∀ j ∈ J, j.gen = m.sess.transcriptionGen)
    (hidx : (J.map Job.idx).Nodup)
    (hres : m.sess.results = [])
    (hbar : m.barriers = [J])
    (hspawn : ∀ j ∈ J, j ∈ m.spawned)
    (hsettled : ∀ j ∈ J, j ∉ m.settled)
    (hJnd : J.Nodup) :
    validRun ora m (π.map Event.jobDone ++ [Event.fireBarrier 0]) = true ∧
    finalAsrTexts
        (run ora m (π.map Event.jobDone ++ [Event.fireBarrier 0])).2 =
      [if countWords (canonicalTranscript ora m.sess.transcriptionGen
            (J.map Job.idx)) < MIN_TRANSCRIPT_WORDS then ""
        else canonicalTranscript ora m.sess.transcriptionGen
          (J.map Job.idx)] := by
  have hgenπ : ∀ j ∈ π, j.gen = m.sess.transcriptionGen :=
    fun j hj => hgen j (hperm.mem_iff.mp hj)
  have hrj := run_jobDones ora π m hgenπ
  have hm1res : (run ora m (π.map Event.jobDone)).1.sess.results =
      π.filterMap (contribOf ora) := by
    rw [hrj.1, hres]
    rfl
  have hm1bar : (run ora m (π.map Event.jobDone)).1.barriers = [J] := by
    rw [hrj.2.2.2.1, hbar]
  have hm1set : (run ora m (π.map Event.jobDone)).1.settled =
      m.settled ++ π := hrj.2.2.2.2.2.1
  have hready : barrierReady (run ora m (π.map Event.jobDone)).1 0 = true := by
    rw [barrierReady, hm1bar, hm1set]
    simp only [List.get?_cons_zero]
    rw [List.all_eq_true]
    intro j hj
    exact List.elem_eq_true_of_mem
      (List.mem_append_right _ (hperm.mem_iff.mpr hj))
  have hvalid2 : validEvent (run ora m (π.map Event.jobDone)).1
      (Event.fireBarrier 0) = true := by
    simp only [validEvent, hready]
    simp
  have hv1 : validRun ora m (π.map Event.jobDone) = true :=
    validRun_jobDones ora π m (hperm.nodup_iff.mpr hJnd)
      (fun j hj => hspawn j (hperm.mem_iff.mp hj))
      (fun j hj => hsettled j (hperm.mem_iff.mp hj))
  constructor
  · rw [validRun_append, hv1]
    simp only [Bool.true_and]
    show (validEvent _ (Event.fireBarrier 0) &&
      validRun ora _ []) = true
    rw [hvalid2]
    rfl
  · rw [run_append, finalAsrTexts_append, hrj.2.2.2.2.2.2.1]
    have hsingle : (run ora (run ora m (π.map Event.jobDone)).1
        [Event.fireBarrier 0]).2 =
        (stepBarrier (run ora m (π.map Event.jobDone)).1 0).2 ++ [] := rfl
    rw [hsingle, List.append_nil, List.nil_append, stepBarrier_finalAsr,
      hm1res, assemble_filterMap_eq_canonical ora m.sess.transcriptionGen
        π J hperm hgen hidx]

theorem endCount_append (l₁ l₂ : List CMsg) :
    endCount (l₁ ++ l₂) = endCount l₁ + endCount l₂ := by
  simp [endCount, List.filter_append]

/-- Once awaiting a response (or ending), every audio tick returns
early: state frozen, nothing sent. -/
theorem runTicks_frozen (ts : List Tick) : ∀ (s : CState),
    (s.awaitingResponse = true ∨ s.isEnding = true) →
    runTicks s ts = (s, []) := by
  induction ts with
  | nil => intro s _; rfl
  | cons t ts ih =>
    intro s hf
    have hstep : tickStep s t = (s, []) := by
      rw [tickStep]
      rcases hf with h | h
      · rw [if_pos (by simp [h])]
      · rw [if_pos (by simp [h])]
    simp only [runTicks, hstep]
    rw [ih s hf]
    rfl

/-- A silent tick below the silence threshold leaves the state
untouched, and sends no `end`. -/
theorem tickStep_silent_short (s : CState) (t : Tick)
    (hna : s.awaitingResponse = false) (hne : s.isEnding = false)
    (hsil : t.silent = true)
    (hshort : ¬ SIL_MS < t.now - s.lastVoiceTs) :
    (tickStep s t).1 = s ∧ endCount (tickStep s t).2 = 0 := by
  obtain ⟨tn, tsil, tco, tao⟩ := t
  simp only at hsil hshort
  subst hsil
  cases tao <;>
    simp [tickStep, hna, hne, hshort, endCount]

/-- A silent tick past the threshold with the control socket open sends
exactly one `end` and freezes the turn. -/
theorem tickStep_fires (s : CState) (t : Tick)
    (hna : s.awaitingResponse = false) (hne : s.isEnding = false)
    (hha : s.hasAudioForTurn = true) (hsil : t.silent = true)
    (hlong : SIL_MS < t.now - s.lastVoiceTs) (hco : t.ctrlOpen = true) :
    (tickStep s t).1.awaitingResponse = true ∧
    endCount (tickStep s t).2 = 1 := by
  obtain ⟨tn, tsil, tco, tao⟩ := t
  simp only at hsil hlong hco
  subst hsil
  subst hco
  cases tao <;>
    simp [tickStep, finalizeTurn, hna, hne, hha, hlong, endCount]

/-- A silent tick past the threshold with the control socket closed is
skipped: the state is untouched (so the attempt repeats at the next
tick) and no `end` goes out. -/
theorem tickStep_skipped (s : CState) (t : Tick)
    (hna : s.awaitingResponse = false) (hne : s.isEnding = false)
    (hsil : t.silent = true) (hco : t.ctrlOpen = false) :
    (tickStep s t).1 = s ∧ endCount (tickStep s t).2 = 0 := by
  obtain ⟨tn, tsil, tco, tao⟩ := t
  simp only at hsil hco
  subst hsil
  subst hco
  by_cases hfire : s.hasAudioForTurn = true ∧ SIL_MS < tn - s.lastVoiceTs
  · cases tao <;>
      simp [tickStep, finalizeTurn, hna, hne, hfire.1, hfire.2, endCount]
  · rw [Decidable.not_and_iff_or_not] at hfire
    rcases hfire with hfa | hfl
    · have hfa2 : s.hasAudioForTurn = false := by
        cases hv : s.hasAudioForTurn
        · rfl
        · exact absurd hv hfa
      cases tao <;>
        simp [tickStep, finalizeTurn, hna, hne, hfa2, endCount]
    · cases tao <;>
        simp [tickStep, finalizeTurn, hna, hne, hfl, endCount]

/-- From a turn with voice observed: over any silent run with the
control socket open, `end` is sent exactly once when some tick strictly
exceeds the threshold, and never when none does. -/
theorem runTicks_silence (ts : List Tick) : ∀ (s : CState),
    s.awaitingResponse = false → s.isEnding = false →
    s.hasAudioForTurn = true →
    (∀ t ∈ ts, t.silent = true ∧ t.ctrlOpen = true) →
    endCount (runTicks s ts).2 =
      (if ∃ t ∈ ts, SIL_MS < t.now - s.lastVoiceTs then 1 else 0) := by
  induction ts with
  | nil =>
    intro s _ _ _ _
    simp [runTicks, endCount]
  | cons t ts ih =>
    intro s hna hne hha hall
    obtain ⟨hsil, hco⟩ := hall t (by simp)
    simp only [runTicks]
    rw [endCount_append]
    by_cases hlong : SIL_MS < t.now - s.lastVoiceTs
    · have hf := tickStep_fires s t hna hne hha hsil hlong hco
      rw [hf.2]
      rw [runTicks_frozen ts (tickStep s t).1 (Or.inl hf.1)]
      rw [if_pos ⟨t, by simp, hlong⟩]
      rfl
    · have hst := tickStep_silent_short s t hna hne hsil hlong
      rw [hst.2, hst.1]
      rw [ih s hna hne hha (fun t2 ht2 => hall t2 (List.mem_cons_of_mem t ht2))]
      by_cases hex : ∃ t2 ∈ ts, SIL_MS < t2.now - s.lastVoiceTs
      · rw [if_pos hex, if_pos ?side]
        case side =>
          obtain ⟨t2, ht2, hl2⟩ := hex
          exact ⟨t2, List.mem_cons_of_mem t ht2, hl2⟩
      · rw [if_neg hex, if_neg ?side]
        case side =>
          rintro ⟨t2, ht2, hl2⟩
          rcases List.mem_cons.mp ht2 with rfl | ht2m
          · exact hlong hl2
          · exact hex ⟨t2, ht2m, hl2⟩

/-- A silent tick never turns a voiceless turn voiced, and without
voice finalize cannot fire. -/
theorem tickStep_no_voice (s : CState) (t : Tick)
    (hha : s.hasAudioForTurn = false) (hsil : t.silent = true) :
    (tickStep s t).1 = s ∧ endCount (tickStep s t).2 = 0 := by
  obtain ⟨tn, tsil, tco, tao⟩ := t
  simp only at hsil
  subst hsil
  rw [tickStep]
  by_cases hg : (s.awaitingResponse || s.isEnding) = true
  · rw [if_pos (by simpa using hg)]
    exact ⟨rfl, by simp [endCount]⟩
  · rw [if_neg (by simpa using hg)]
    simp only [Bool.not_true, not_true, ite_false, ite_true, if_false]
    rw [if_neg (by simp [hha])]
    refine ⟨rfl, ?_⟩
    cases tao <;> simp [endCount, hha]

/-- Without any voiced tick the turn never gains audio, so finalize
never fires. -/
theorem runTicks_no_voice (ts : List Tick) : ∀ (s : CState),
    s.hasAudioForTurn = false →
    (∀ t ∈ ts, t.silent = true) →
    (runTicks s ts).1.hasAudioForTurn = false ∧
    endCount (runTicks s ts).2 = 0 := by
  induction ts with
  | nil =>
    intro s hha _
    exact ⟨hha, by simp [runTicks, endCount]⟩
  | cons t ts ih =>
    intro s hha hall
    have hstep := tickStep_no_voice s t hha (hall t (by simp))
    simp only [runTicks]
    rw [endCount_append, hstep.2, hstep.1]
    have hr := ih s hha (fun t2 ht2 => hall t2 (List.mem_cons_of_mem t ht2))
    exact ⟨hr.1, by rw [hr.2]⟩

/-- A voiced tick (while not awaiting) marks the turn voiced and
refreshes the voice timestamp, and sends no `end` itself. -/
theorem tickStep_voiced (s : CState) (t : Tick)
    (hna : s.awaitingResponse = false) (hne : s.isEnding = false)
    (hv : t.silent = false) :
    (tickStep s t).1 =
      { s with lastVoiceTs := t.now, hasAudioForTurn := true } ∧
    endCount (tickStep s t).2 = 0 := by
  obtain ⟨tn, tsil, tco, tao⟩ := t
  simp only at hv
  subst hv
  simp only [tickStep, hna, hne, Bool.or_self, Bool.false_eq_true, if_false,
    Bool.not_false, not_false_iff, ite_true, ite_false]
  rw [if_neg (by simp [SIL_MS])]
  refine ⟨rfl, ?_⟩
  cases tao <;> simp [endCount]

/-! ## Helper lemmas for the claim theorems -/

theorem stepEnd_cur_zero (m : Machine) (hcur : m.sess.cur = 0) :
    stepEnd m = ({ m with
      sess := { m.sess with ended := true }
      barriers := m.barriers ++ [m.sess.jobs] }, []) := by
  simp only [stepEnd]
  rw [if_neg (show ¬ 0 < ({ m.sess with ended := true } : Sess).cur by
    show ¬ 0 < m.sess.cur
    rw [hcur]
    exact Nat.lt_irrefl 0)]

theorem stepBarrier_sess (m : Machine) (i : Nat) :
    (stepBarrier m i).1.sess = resetTranscriptionBuffers m.sess false ∧
    (stepBarrier m i).1.settled = m.settled ∧
    (stepBarrier m i).1.spawned = m.spawned ∧
    (stepBarrier m i).1.barriers = m.barriers.eraseIdx i ∧
    (finalAsrTexts (stepBarrier m i).2).length = 1 ∧
    llmQueryCount (stepBarrier m i).2 ≤ 1 := by
  simp only [stepBarrier]
  by_cases h : countWords (assembleTranscript m.sess.results) <
      MIN_TRANSCRIPT_WORDS
  · rw [if_pos h]
    exact ⟨rfl, rfl, rfl, rfl, rfl, Nat.zero_le 1⟩
  · rw [if_neg h]
    cases hs : m.sess.sessionId with
    | some sid => exact ⟨rfl, rfl, rfl, rfl, rfl, Nat.le_refl 1⟩
    | none => exact ⟨rfl, rfl, rfl, rfl, rfl, Nat.zero_le 1⟩

theorem stepBarrier_no_results (m : Machine) (i : Nat)
    (hres : m.sess.results = []) :
    (stepBarrier m i).2 = [Msg.finalAsr "", Msg.llmDoneInsufficient 0] := by
  simp only [stepBarrier, hres]
  rw [if_pos (show countWords (assembleTranscript []) < MIN_TRANSCRIPT_WORDS
    by decide)]
  show [Msg.finalAsr "", Msg.llmDoneInsufficient (countWords
    (assembleTranscript []))] = [Msg.finalAsr "", Msg.llmDoneInsufficient 0]
  decide

/-! ## The claims -/

/-- C2: after the generation counter is bumped (`start` and the
post-barrier reset both add one to it), a transcription completion
tagged with a different generation mutates no session state and causes
no outbound message. -/
theorem c2_generation_isolation (ora : Oracle) (m : Machine) (j : Job)
    (hstale : j.gen ≠ m.sess.transcriptionGen) :
    (stepJobDone ora m j).1.sess = m.sess ∧
    (stepJobDone ora m j).2 = [] ∧
    (∀ outcome, (stepStart m outcome).1.sess.transcriptionGen =
      m.sess.transcriptionGen + 1) ∧
    (∀ i, (stepBarrier m i).1.sess.transcriptionGen =
      m.sess.transcriptionGen + 1) := by
  have hjob : (stepJobDone ora m j).1.sess = m.sess ∧
      (stepJobDone ora m j).2 = [] := by
    cases hora : ora j.gen j.idx with
    | none => simp [stepJobDone, hora]
    | some raw =>
      simp only [stepJobDone, hora]
      rw [if_pos hstale]
      exact ⟨rfl, rfl⟩
  refine ⟨hjob.1, hjob.2, ?_, ?_⟩
  · intro outcome
    cases outcome with
    | some sid => rfl
    | none => rfl
  · intro i
    rw [(stepBarrier_sess m i).1]
    rfl

/-- The C2 theorem at a concrete input: a generation-0 completion
arriving at a generation-1 session is dropped without trace. -/
theorem c2_generation_isolation_witness :
    (stepJobDone oraShort mShort jStale).1.sess = mShort.sess ∧
    (stepJobDone oraShort mShort jStale).2 = [] ∧
    (∀ outcome, (stepStart mShort outcome).1.sess.transcriptionGen =
      mShort.sess.transcriptionGen + 1) ∧
    (∀ i, (stepBarrier mShort i).1.sess.transcriptionGen =
      mShort.sess.transcriptionGen + 1) :=
  c2_generation_isolation oraShort mShort jStale (by decide)

/-- C4: with a final transcript below the word minimum the barrier
callback sends `final_asr` with empty text plus the synthetic
insufficient-words `done`, queries nothing and opens no stream; at or
above the minimum it sends the transcript, but it opens the Answer
Service query only when a FastAPI session id is present — with
`sessionId` unset it sends `final_asr` alone and queries nothing, which
the claim's unconditional wording misses. -/
theorem c4_minimum_gate (m : Machine) (i : Nat) :
    (countWords (assembleTranscript m.sess.results) < MIN_TRANSCRIPT_WORDS →
      (stepBarrier m i).2 =
        [Msg.finalAsr "",
         Msg.llmDoneInsufficient
           (countWords (assembleTranscript m.sess.results))] ∧
      llmQueryCount (stepBarrier m i).2 = 0 ∧
      (stepBarrier m i).1.openStreams = m.openStreams) ∧
    (MIN_TRANSCRIPT_WORDS ≤ countWords (assembleTranscript m.sess.results) →
      finalAsrTexts (stepBarrier m i).2 =
        [assembleTranscript m.sess.results] ∧
      (∀ sid, m.sess.sessionId = some sid →
        (stepBarrier m i).2 =
          [Msg.finalAsr (assembleTranscript m.sess.results),
           Msg.llmQuery sid (assembleTranscript m.sess.results)] ∧
        llmQueryCount (stepBarrier m i).2 = 1) ∧
      (m.sess.sessionId = none →
        (stepBarrier m i).2 =
          [Msg.finalAsr (assembleTranscript m.sess.results)] ∧
        llmQueryCount (stepBarrier m i).2 = 0)) := by
  constructor
  · intro h
    simp only [stepBarrier, if_pos h]
    refine ⟨?_, ?_, ?_⟩ <;> trivial
  · intro h
    have hnl : ¬ countWords (assembleTranscript m.sess.results) <
        MIN_TRANSCRIPT_WORDS := Nat.not_lt.mpr h
    refine ⟨?_, ?_, ?_⟩
    · simp only [stepBarrier, if_neg hnl]
      cases hs : m.sess.sessionId with
      | some sid => rfl
      | none => rfl
    · intro sid hsid
      simp only [stepBarrier, if_neg hnl, hsid]
      refine ⟨?_, ?_⟩ <;> trivial
    · intro hsid
      simp only [stepBarrier, if_neg hnl, hsid]
      refine ⟨?_, ?_⟩ <;> trivial

/-- A barrier that settles with a five-word transcript but no FastAPI
session id sends the transcript and performs no Answer Service query:
the above-minimum branch of the claim does not hold unconditionally. -/
theorem c4_minimum_gate_counterexample :
    ¬ countWords (assembleTranscript mNoSid.sess.results) <
        MIN_TRANSCRIPT_WORDS ∧
    finalAsrTexts (stepBarrier mNoSid 0).2 =
      ["alpha beta gamma delta epsilon"] ∧
    llmQueryCount (stepBarrier mNoSid 0).2 = 0 := by decide

/-- C5: a terminal upstream event (`done` or `error`) closes exactly
that relay's stream — the closed stream is gone, every other stream
survives — but a new `pipeLLM` call at the barrier prepends a fresh
stream while leaving every previously-open stream open, so a session
can hold two open relays and the at-most-one wording fails. -/
theorem c5_stream_lifecycle (m : Machine) (sd : Nat) (evt : String)
    (i : Nat) :
    sd ∉ (stepStreamClose m sd evt).1.openStreams ∧
    (∀ x ∈ m.openStreams, x ≠ sd →
      x ∈ (stepStreamClose m sd evt).1.openStreams) ∧
    (MIN_TRANSCRIPT_WORDS ≤ countWords (assembleTranscript m.sess.results) →
      ∀ sid, m.sess.sessionId = some sid →
      (stepBarrier m i).1.openStreams = m.nextStream :: m.openStreams) := by
  refine ⟨?_, ?_, ?_⟩
  · intro hmem
    simp only [stepStreamClose, List.mem_filter, decide_eq_true_eq] at hmem
    exact hmem.2 rfl
  · intro x hx hne
    simp only [stepStreamClose, List.mem_filter, decide_eq_true_eq]
    exact ⟨hx, hne⟩
  · intro hw sid hsid
    have hnl : ¬ countWords (assembleTranscript m.sess.results) <
        MIN_TRANSCRIPT_WORDS := Nat.not_lt.mpr hw
    simp only [stepBarrier, if_neg hnl, hsid]

/-- A valid two-turn schedule after which the session holds two open
AnswerStreams at once: the barrier of the second turn opens stream 1
while stream 0 from the first turn was never closed. -/
theorem c5_stream_lifecycle_counterexample :
    validRun oraAll initMachine esTwoTurns = true ∧
    (run oraAll initMachine esTwoTurns).1.openStreams = [1, 0] := by decide

/-- C6: the normalization the job continuation applies coincides, on
every raw engine output, with the spec's contract (strip
bracket/paren/brace annotations, collapse whitespace, empty and
pure-punctuation remainders and the fixed non-speech vocabulary map to
empty), and the cleaned text is stored keyed by the segment's sequence
index exactly when it is non-empty. -/
theorem c6_normalization_storage (ora : Oracle) (m : Machine) (j : Job)
    (raw : String) (hora : ora j.gen j.idx = some raw)
    (hg : j.gen = m.sess.transcriptionGen) :
    (∀ s : String, normalizeWhisperText s = specNormalizeWhisperText s) ∧
    (stepJobDone ora m j).1.sess.results =
      m.sess.results ++
        (if normalizeWhisperText raw = "" then []
         else [(j.idx, normalizeWhisperText raw)]) := by
  refine ⟨normalize_eq_spec, ?_⟩
  rw [(stepJobDone_current ora m j hg).1]
  congr 1
  rw [contribOf]
  have hcl : cleanedOf ora j.gen j.idx = normalizeWhisperText raw := by
    rw [cleanedOf, hora]
  rw [hcl]
  by_cases hemp : normalizeWhisperText raw = ""
  · rw [if_pos hemp, if_pos hemp]
    rfl
  · rw [if_neg hemp, if_neg hemp]
    rfl

/-- The C6 theorem at a concrete input: the non-speech output
`[noise]` normalizes to the empty string and is not stored. -/
theorem c6_normalization_storage_witness :
    (∀ s : String, normalizeWhisperText s = specNormalizeWhisperText s) ∧
    (stepJobDone oraNoise mShort jShort).1.sess.results =
      mShort.sess.results ++
        (if normalizeWhisperText "[noise]" = "" then []
         else [(jShort.idx, normalizeWhisperText "[noise]")]) :=
  c6_normalization_storage oraNoise mShort jShort "[noise]" (by decide)
    (by decide)

/-- C7: an `end` that finds bytes in the rolling buffer flushes them as
exactly one trailing segment tagged with the current generation, empties
the buffer, and registers the barrier over the jobs list with that
trailing job included; and a barrier can only fire once every job it
awaits — the trailing job included — has settled. -/
theorem c7_trailing_flush (m : Machine) (hcur : 0 < m.sess.cur) :
    (stepEnd m).1.sess.jobs = m.sess.jobs ++
      [{ gen := m.sess.transcriptionGen, idx := m.sess.segIdx,
         kind := JobKind.trailing }] ∧
    (stepEnd m).1.sess.cur = 0 ∧
    (stepEnd m).1.spawned = m.spawned ++
      [{ gen := m.sess.transcriptionGen, idx := m.sess.segIdx,
         kind := JobKind.trailing }] ∧
    (stepEnd m).1.barriers = m.barriers ++
      [m.sess.jobs ++
        [{ gen := m.sess.transcriptionGen, idx := m.sess.segIdx,
           kind := JobKind.trailing }]] ∧
    (stepEnd m).2 = [] ∧
    (∀ (m2 : Machine) (i : Nat) (B : List Job),
      validEvent m2 (Event.fireBarrier i) = true →
      m2.barriers.get? i = some B → ∀ jb ∈ B, jb ∈ m2.settled) := by
  have hpos : 0 < ({ m.sess with ended := true } : Sess).cur := hcur
  refine ⟨?_, ?_, ?_, ?_, ?_, ?_⟩
  · simp only [stepEnd]
    rw [if_pos hpos]
  · simp only [stepEnd]
    rw [if_pos hpos]
  · simp only [stepEnd]
    rw [if_pos hpos]
  · simp only [stepEnd]
    rw [if_pos hpos]
  · simp only [stepEnd]
    rw [if_pos hpos]
  · intro m2 i B hval hB jb hjb
    simp only [validEvent, Bool.and_eq_true] at hval
    have hready := hval.1
    rw [barrierReady, hB] at hready
    rw [List.all_eq_true] at hready
    exact List.mem_of_elem_eq_true (hready jb hjb)

/-- The C7 theorem at a concrete input: 500 buffered bytes are flushed
as the generation-1 trailing segment with sequence index 0. -/
theorem c7_trailing_flush_witness :
    (stepEnd mC7).1.sess.jobs = mC7.sess.jobs ++
      [{ gen := mC7.sess.transcriptionGen, idx := mC7.sess.segIdx,
         kind := JobKind.trailing }] ∧
    (stepEnd mC7).1.sess.cur = 0 ∧
    (stepEnd mC7).1.spawned = mC7.spawned ++
      [{ gen := mC7.sess.transcriptionGen, idx := mC7.sess.segIdx,
         kind := JobKind.trailing }] ∧
    (stepEnd mC7).1.barriers = mC7.barriers ++
      [mC7.sess.jobs ++
        [{ gen := mC7.sess.transcriptionGen, idx := mC7.sess.segIdx,
           kind := JobKind.trailing }]] ∧
    (stepEnd mC7).2 = [] ∧
    (∀ (m2 : Machine) (i : Nat) (B : List Job),
      validEvent m2 (Event.fireBarrier i) = true →
      m2.barriers.get? i = some B → ∀ jb ∈ B, jb ∈ m2.settled) :=
  c7_trailing_flush mC7 (by decide)

/-- C9: on a voiced turn, over any run of silent ticks with the control
channel open, `end` goes out exactly once when some tick's silence run
strictly exceeds the 1200 ms threshold and never otherwise; finalize
never fires on a turn without voice, never fires while awaiting a
response or ending, and with the control channel closed the attempt is
skipped with the state untouched, so it retries at the next tick. -/
theorem c9_endpointing (s : CState) (ts : List Tick)
    (hna : s.awaitingResponse = false) (hne : s.isEnding = false)
    (hha : s.hasAudioForTurn = true)
    (hall : ∀ t ∈ ts, t.silent = true ∧ t.ctrlOpen = true) :
    endCount (runTicks s ts).2 =
      (if ∃ t ∈ ts, SIL_MS < t.now - s.lastVoiceTs then 1 else 0) ∧
    (∀ s2 : CState, s2.hasAudioForTurn = false →
      (∀ t ∈ ts, t.silent = true) → endCount (runTicks s2 ts).2 = 0) ∧
    (∀ (s3 : CState) (ts2 : List Tick),
      s3.awaitingResponse = true ∨ s3.isEnding = true →
      runTicks s3 ts2 = (s3, [])) ∧
    (∀ (s4 : CState) (t : Tick), s4.awaitingResponse = false →
      s4.isEnding = false → t.silent = true → t.ctrlOpen = false →
      (tickStep s4 t).1 = s4 ∧ endCount (tickStep s4 t).2 = 0) := by
  refine ⟨runTicks_silence ts s hna hne hha hall, ?_, ?_, ?_⟩
  · intro s2 h2 hsil
    exact (runTicks_no_voice ts s2 h2 hsil).2
  · intro s3 ts2 h3
    exact runTicks_frozen ts2 s3 h3
  · intro s4 t h1 h2 h3 h4
    exact tickStep_skipped s4 t h1 h2 h3 h4

/-- The C9 theorem at a concrete input: one silent tick 1201 ms after
the last voiced frame fires finalize exactly once. -/
theorem c9_endpointing_witness :
    endCount (runTicks sVoiced [tLate]).2 =
      (if ∃ t ∈ [tLate], SIL_MS < t.now - sVoiced.lastVoiceTs
       then 1 else 0) ∧
    (∀ s2 : CState, s2.hasAudioForTurn = false →
      (∀ t ∈ [tLate], t.silent = true) →
      endCount (runTicks s2 [tLate]).2 = 0) ∧
    (∀ (s3 : CState) (ts2 : List Tick),
      s3.awaitingResponse = true ∨ s3.isEnding = true →
      runTicks s3 ts2 = (s3, [])) ∧
    (∀ (s4 : CState) (t : Tick), s4.awaitingResponse = false →
      s4.isEnding = false → t.silent = true → t.ctrlOpen = false →
      (tickStep s4 t).1 = s4 ∧ endCount (tickStep s4 t).2 = 0) :=
  c9_endpointing sVoiced [tLate] (by decide) (by decide) (by decide)
    (by decide)

/-- A voiced frame at 0 ms followed by a silent evaluation at exactly
1200 ms — a silence run equal to the threshold — does not fire
finalize: the code requires the run to strictly exceed 1200 ms, so the
claim's "at least the threshold" reading fails at the boundary. -/
theorem c9_endpointing_counterexample :
    endCount (runTicks s0C [tVoice, tEdge]).2 = 0 ∧
    SIL_MS ≤ tEdge.now - tVoice.now := by decide

/-- C10: the text normalization is idempotent — normalizing an
already-normalized output returns it unchanged, the empty string
included. -/
theorem c10_normalize_idempotent (s : String) :
    normalizeWhisperText (normalizeWhisperText s) =
      normalizeWhisperText s := by
  rcases normalize_cases s with h | ⟨t, heq, hteq, hne, hal, htok⟩
  · rw [h]
    exact rfl
  · rw [heq]
    subst hteq
    exact normalize_fixpoint _ (cleanPipeline_wsClean _) hne hal
      (cleanPipeline_no_bracket _) (cleanPipeline_no_paren _)
      (cleanPipeline_no_brace _) htok

/-- C1: for any arrival order of a turn's segment completions, the
barrier's `final_asr` text is a function of the canonical transcript —
the normalized non-empty segment texts joined by single spaces in
ascending sequence-index order — alone: the canonical transcript itself
when it meets the word minimum, and the empty string (not the canonical
transcript, as the claim words it) when it falls below. -/
theorem c1_arrival_order_independence (ora : Oracle) (m : Machine)
    (J π : List Job)
    (hperm : π.Perm J)
    (hgen : ∀ j ∈ J, j.gen = m.sess.transcriptionGen)
    (hidx : (J.map Job.idx).Nodup)
    (hres : m.sess.results = [])
    (hbar : m.barriers = [J])
    (hspawn : ∀ j ∈ J, j ∈ m.spawned)
    (hsettled : ∀ j ∈ J, j ∉ m.settled)
    (hJnd : J.Nodup) :
    validRun ora m (π.map Event.jobDone ++ [Event.fireBarrier 0]) = true ∧
    finalAsrTexts
        (run ora m (π.map Event.jobDone ++ [Event.fireBarrier 0])).2 =
      [if countWords (canonicalTranscript ora m.sess.transcriptionGen
            (J.map Job.idx)) < MIN_TRANSCRIPT_WORDS then ""
        else canonicalTranscript ora m.sess.transcriptionGen
          (J.map Job.idx)] :=
  run_turn_final ora m J π hperm hgen hidx hres hbar hspawn hsettled hJnd

/-- The C1 theorem at a concrete input: the six-word two-segment turn,
with the completions arriving in reverse index order, still produces
the index-ordered transcript. -/
theorem c1_arrival_order_independence_witness :
    validRun oraTwo mTwo
        ([jB, jA].map Event.jobDone ++ [Event.fireBarrier 0]) = true ∧
    finalAsrTexts
        (run oraTwo mTwo
          ([jB, jA].map Event.jobDone ++ [Event.fireBarrier 0])).2 =
      [if countWords (canonicalTranscript oraTwo mTwo.sess.transcriptionGen
            ([jA, jB].map Job.idx)) < MIN_TRANSCRIPT_WORDS then ""
        else canonicalTranscript oraTwo mTwo.sess.transcriptionGen
          ([jA, jB].map Job.idx)] :=
  c1_arrival_order_independence oraTwo mTwo [jA, jB] [jB, jA] (by decide)
    (by decide) (by decide) (by decide) (by decide) (by decide) (by decide)
    (by decide)

/-- A valid one-segment turn whose canonical transcript is the two-word
"hello there": the claim says the `final_asr` text equals the canonical
transcript for every interleaving, but the below-minimum gate sends the
empty string instead. -/
theorem c1_arrival_order_independence_counterexample :
    validRun oraShort mShort [Event.jobDone jShort, Event.fireBarrier 0]
      = true ∧
    canonicalTranscript oraShort 1 [0] = "hello there" ∧
    finalAsrTexts
        (run oraShort mShort
          [Event.jobDone jShort, Event.fireBarrier 0]).2 = [""] := by
  decide

/-- C8: a turn containing a segment whose engine invocation rejects
still runs to completion — the schedule stays valid, the barrier fires,
and the final transcript is the canonical one over all indices, the
failed segment contributing nothing — but, against the claim's wording,
nothing is recorded for the failed index: no entry for it, empty or
otherwise, ever reaches the results. -/
theorem c8_failure_isolation (ora : Oracle) (m : Machine)
    (J π : List Job) (jf : Job)
    (hperm : π.Perm J)
    (hgen : ∀ j ∈ J, j.gen = m.sess.transcriptionGen)
    (hidx : (J.map Job.idx).Nodup)
    (hres : m.sess.results = [])
    (hbar : m.barriers = [J])
    (hspawn : ∀ j ∈ J, j ∈ m.spawned)
    (hsettled : ∀ j ∈ J, j ∉ m.settled)
    (hJnd : J.Nodup)
    (hjf : jf ∈ J)
    (hfail : ora jf.gen jf.idx = none) :
    validRun ora m (π.map Event.jobDone ++ [Event.fireBarrier 0]) = true ∧
    finalAsrTexts
        (run ora m (π.map Event.jobDone ++ [Event.fireBarrier 0])).2 =
      [if countWords (canonicalTranscript ora m.sess.transcriptionGen
            (J.map Job.idx)) < MIN_TRANSCRIPT_WORDS then ""
        else canonicalTranscript ora m.sess.transcriptionGen
          (J.map Job.idx)] ∧
    (∀ t : String,
      (jf.idx, t) ∉ (run ora m (π.map Event.jobDone)).1.sess.results) := by
  have hmain := run_turn_final ora m J π hperm hgen hidx hres hbar hspawn
    hsettled hJnd
  refine ⟨hmain.1, hmain.2, ?_⟩
  intro t hmem
  have hrj := run_jobDones ora π m
    (fun j hj => hgen j (hperm.mem_iff.mp hj))
  rw [hrj.1, hres, List.nil_append, List.mem_filterMap] at hmem
  obtain ⟨j, hjπ, hcontrib⟩ := hmem
  rw [contribOf] at hcontrib
  by_cases hemp : cleanedOf ora j.gen j.idx = ""
  · rw [if_pos hemp] at hcontrib
    cases hcontrib
  · rw [if_neg hemp] at hcontrib
    have hpair := Option.some.inj hcontrib
    have hidxeq : j.idx = jf.idx := congrArg Prod.fst hpair
    have hjJ : j ∈ J := hperm.mem_iff.mp hjπ
    have hjeq : j = jf := List.inj_on_of_nodup_map hidx hjJ hjf hidxeq
    apply hemp
    rw [hjeq, cleanedOf, hfail]

/-- The C8 theorem at a concrete input: of a two-segment turn, segment
0's engine call rejects and segment 1 resolves with five words; the run
is valid, the transcript is segment 1's text alone, and no entry for
index 0 is recorded. -/
theorem c8_failure_isolation_witness :
    validRun oraOneFails mC8w
        ([jG, jF].map Event.jobDone ++ [Event.fireBarrier 0]) = true ∧
    finalAsrTexts
        (run oraOneFails mC8w
          ([jG, jF].map Event.jobDone ++ [Event.fireBarrier 0])).2 =
      [if countWords (canonicalTranscript oraOneFails
            mC8w.sess.transcriptionGen ([jF, jG].map Job.idx)) <
          MIN_TRANSCRIPT_WORDS then ""
        else canonicalTranscript oraOneFails mC8w.sess.transcriptionGen
          ([jF, jG].map Job.idx)] ∧
    (∀ t : String,
      (jF.idx, t) ∉
        (run oraOneFails mC8w ([jG, jF].map Event.jobDone)).1.sess.results) :=
  c8_failure_isolation oraOneFails mC8w [jF, jG] [jG, jF] jF (by decide)
    (by decide) (by decide) (by decide) (by decide) (by decide) (by decide)
    (by decide) (by decide) (by decide)

/-- A failed segment leaves the results untouched: after its completion
settles, the results list is empty — in particular no empty-text entry
for its index was recorded, against the claim's wording — and the
barrier still sends a `final_asr`. -/
theorem c8_failure_isolation_counterexample :
    validRun oraFail mFail [Event.jobDone jShort, Event.fireBarrier 0]
      = true ∧
    (run oraFail mFail [Event.jobDone jShort]).1.sess.results = [] ∧
    finalAsrTexts
        (run oraFail mFail
          [Event.jobDone jShort, Event.fireBarrier 0]).2 = [""] := by
  decide

theorem validEvent_fireBarrier_head (mm : Machine) (B : List Job)
    (rest : List (List Job)) (hb : mm.barriers = B :: rest)
    (hs : ∀ j ∈ B, j ∈ mm.settled) :
    validEvent mm (Event.fireBarrier 0) = true := by
  have hall : B.all (fun j => mm.settled.contains j) = true :=
    List.all_eq_true.mpr (fun j hj => List.elem_eq_true_of_mem (hs j hj))
  simp only [validEvent, barrierReady, hb, List.get?_cons_zero,
    List.range_zero, List.all_nil, Bool.and_true]
  exact hall

/-- C3: the server has no re-entrancy guard — an idle session that
receives `end` twice registers two barriers and emits two `final_asr`
messages (not one, as the claim says), though at most one Answer
Service query opens, because the first barrier's reset empties the
buffers the second barrier assembles; only the client's
`awaitingResponseRef` guard keeps a second `end` from being sent at
all. -/
theorem c3_double_end (ora : Oracle) (m : Machine)
    (hcur : m.sess.cur = 0)
    (hbar : m.barriers = [])
    (hsettle : ∀ j ∈ m.sess.jobs, j ∈ m.settled) :
    validRun ora m
        [Event.endCmd, Event.endCmd, Event.fireBarrier 0,
         Event.fireBarrier 0] = true ∧
    (finalAsrTexts (run ora m
        [Event.endCmd, Event.endCmd, Event.fireBarrier 0,
         Event.fireBarrier 0]).2).length = 2 ∧
    llmQueryCount (run ora m
        [Event.endCmd, Event.endCmd, Event.fireBarrier 0,
         Event.fireBarrier 0]).2 ≤ 1 ∧
    (∀ (s : CState) (ts : List Tick), s.awaitingResponse = true →
      runTicks s ts = (s, [])) := by
  obtain ⟨sess, sp, st, bar, os, ns⟩ := m
  obtain ⟨cur, res, jobs, si, tb, en, sid, g⟩ := sess
  replace hcur : cur = 0 := hcur
  subst hcur
  replace hbar : bar = [] := hbar
  subst hbar
  replace hsettle : ∀ j ∈ jobs, j ∈ st := hsettle
  have he1 : stepEnd (⟨⟨0, res, jobs, si, tb, en, sid, g⟩, sp, st, [],
      os, ns⟩ : Machine) =
      (⟨⟨0, res, jobs, si, tb, true, sid, g⟩, sp, st, [jobs], os, ns⟩,
       []) := by
    simp only [stepEnd]
    rw [if_neg (Nat.lt_irrefl 0)]
    rfl
  have he2 : stepEnd (⟨⟨0, res, jobs, si, tb, true, sid, g⟩, sp, st,
      [jobs], os, ns⟩ : Machine) =
      (⟨⟨0, res, jobs, si, tb, true, sid, g⟩, sp, st, [jobs, jobs], os,
        ns⟩, []) := by
    simp only [stepEnd]
    rw [if_neg (Nat.lt_irrefl 0)]
    rfl
  have hB : (⟨⟨0, res, jobs, si, tb, true, sid, g⟩, sp, st,
      [jobs, jobs], os, ns⟩ : Machine).barriers = jobs :: [jobs] := rfl
  have hBs : ∀ j ∈ jobs, j ∈ (⟨⟨0, res, jobs, si, tb, true, sid, g⟩, sp,
      st, [jobs, jobs], os, ns⟩ : Machine).settled := hsettle
  have hsb := stepBarrier_sess (⟨⟨0, res, jobs, si, tb, true, sid, g⟩,
    sp, st, [jobs, jobs], os, ns⟩ : Machine) 0
  have hCres : (stepBarrier (⟨⟨0, res, jobs, si, tb, true, sid, g⟩, sp,
      st, [jobs, jobs], os, ns⟩ : Machine) 0).1.sess.results = [] := by
    rw [hsb.1]
    rfl
  have hCbar : (stepBarrier (⟨⟨0, res, jobs, si, tb, true, sid, g⟩, sp,
      st, [jobs, jobs], os, ns⟩ : Machine) 0).1.barriers = [jobs] := by
    rw [hsb.2.2.2.1, hB]
    rfl
  have hCset : ∀ j ∈ jobs, j ∈ (stepBarrier (⟨⟨0, res, jobs, si, tb,
      true, sid, g⟩, sp, st, [jobs, jobs], os, ns⟩ : Machine) 0).1.settled := by
    rw [hsb.2.1]
    exact hsettle
  have hv3 : validEvent (⟨⟨0, res, jobs, si, tb, true, sid, g⟩, sp, st,
      [jobs, jobs], os, ns⟩ : Machine) (Event.fireBarrier 0) = true :=
    validEvent_fireBarrier_head _ jobs [jobs] hB hBs
  have hv4 : validEvent (stepBarrier (⟨⟨0, res, jobs, si, tb, true, sid,
      g⟩, sp, st, [jobs, jobs], os, ns⟩ : Machine) 0).1
      (Event.fireBarrier 0) = true :=
    validEvent_fireBarrier_head _ jobs [] hCbar hCset
  have hq2 : llmQueryCount (stepBarrier (stepBarrier (⟨⟨0, res, jobs,
      si, tb, true, sid, g⟩, sp, st, [jobs, jobs], os, ns⟩ : Machine)
      0).1 0).2 = 0 := by
    rw [stepBarrier_no_results _ 0 hCres]
    rfl
  have hl2 : (finalAsrTexts (stepBarrier (stepBarrier (⟨⟨0, res, jobs,
      si, tb, true, sid, g⟩, sp, st, [jobs, jobs], os, ns⟩ : Machine)
      0).1 0).2).length = 1 := by
    rw [stepBarrier_no_results _ 0 hCres]
    rfl
  refine ⟨?_, ?_, ?_, fun s ts h => runTicks_frozen ts s (Or.inl h)⟩
  · simp only [validRun, step, he1, he2, hv3, hv4,
      show ∀ mm : Machine, validEvent mm Event.endCmd = true from
        fun mm => rfl,
      Bool.true_and, Bool.and_true]
  · simp only [run, step, he1, he2, List.nil_append, List.append_nil,
      finalAsrTexts_append, List.length_append]
    rw [hsb.2.2.2.2.1, hl2]
  · simp only [run, step, he1, he2, List.nil_append, List.append_nil,
      llmQueryCount_append]
    rw [hq2, Nat.add_zero]
    exact hsb.2.2.2.2.2

/-- The C3 theorem at a concrete input: an idle generation-1 session
with one settled job receives `end` twice; both barriers fire, two
`final_asr` messages go out against the claim's "exactly one", and one
query opens. -/
theorem c3_double_end_witness :
    validRun oraFive mC3w
        [Event.endCmd, Event.endCmd, Event.fireBarrier 0,
         Event.fireBarrier 0] = true ∧
    (finalAsrTexts (run oraFive mC3w
        [Event.endCmd, Event.endCmd, Event.fireBarrier 0,
         Event.fireBarrier 0]).2).length = 2 ∧
    llmQueryCount (run oraFive mC3w
        [Event.endCmd, Event.endCmd, Event.fireBarrier 0,
         Event.fireBarrier 0]).2 ≤ 1 ∧
    (∀ (s : CState) (ts : List Tick), s.awaitingResponse = true →
      runTicks s ts = (s, [])) :=
  c3_double_end oraFive mC3w (by decide) (by decide) (by decide)

/-- A valid schedule in which the client sends `end` twice in one turn:
the server emits two `final_asr` messages, not the single one the
claim's idempotent-finalize wording promises. -/
theorem c3_double_end_counterexample :
    validRun oraFive initMachine esDouble = true ∧
    (finalAsrTexts (run oraFive initMachine esDouble).2).length = 2 ∧
    llmQueryCount (run oraFive initMachine esDouble).2 = 1 := by decide

end VoiceAgent
